import Mathlib

/-!
Verification of the TabTreeTracker domain-clustering core against its
natural-language specification.

The development shallowly embeds the JavaScript sources:
  - `src/domain-utils.js`    (extractDomain, generateDomainColor, groupNodesByDomain)
  - `src/connection-mapper.js` (buildDomainConnections, calculateConnectionStrength)
  - `src/viewer/components/cluster-boundaries.js` (calculateConvexHull, createPaddedBoundary)
  - `src/viewer/components/cluster-visualizer.js` (clusterForce)

Modelling conventions:
  - JavaScript numbers are idealised as exact rationals (`ℚ`) in the data
    pipeline, and as reals (`ℝ`) in the geometry and physics code, where
    square roots and trigonometric functions occur.  Floating-point rounding
    is not modelled.
  - JavaScript `Map`s are insertion-ordered association lists; `Map.set` on an
    existing key replaces the value in place, as in the engine.
  - `Date.now()` is an explicit parameter `now : ℚ`.
  - Strings are processed through their character lists so that every string
    function in the model reduces inside the kernel.
-/

namespace TTT

/-! ## Character/string helpers (exact models of the JS string operations used) -/

/-- ASCII lower-casing of one character; model of the `toLowerCase` behaviour on
the ASCII hostnames this code handles. -/
def lowerChar (c : Char) : Char :=
  if 'A' ≤ c ∧ c ≤ 'Z' then Char.ofNat (c.toNat + 32) else c

/-- Lower-case a string (ASCII), character by character. -/
def lowerStr (s : String) : String :=
  String.mk (s.data.map lowerChar)

/-- Does the character list `s` start with the pattern `p`?  Model of
`String.prototype.startsWith`. -/
def charsStartWith : List Char → List Char → Bool
  | _, [] => true
  | [], _ :: _ => false
  | c :: cs, p :: ps => c = p && charsStartWith cs ps

/-- Split a character list on a separator character; model of
`String.prototype.split` with a one-character separator (always returns at
least one, possibly empty, group). -/
def splitOnChar (sep : Char) : List Char → List (List Char)
  | [] => [[]]
  | c :: rest =>
    match splitOnChar sep rest with
    | [] => [[]]
    | g :: gs => if c = sep then [] :: g :: gs else (c :: g) :: gs

/-- Remove the first occurrence of a character; model of
`String.prototype.replace(c, '')` with a one-character pattern. -/
def removeFirstChar (t : Char) : List Char → List Char
  | [] => []
  | c :: cs => if c = t then cs else c :: removeFirstChar t cs

/-! ## Domain Resolver (`src/domain-utils.js`, extractDomain) -/

/-- A JavaScript value as seen by `extractDomain`'s input guard
`!url || typeof url !== 'string'`: `null`/`undefined`, any non-string value, or
a string. -/
inductive JSVal where
  | nullish : JSVal
  | nonString : JSVal
  | str : String → JSVal
deriving DecidableEq

/-- Options destructured by `extractDomain`, with the source's defaults. -/
structure DomainOptions where
  removeWww : Bool := true
  groupSubdomains : Bool := false
  fallback : String := "unknown"

/-- The source's default options object (`options = {}`). -/
def defaultDomainOptions : DomainOptions := {}

/-- Parsed pieces of a URL as `extractDomain` reads them off the host `URL`
object.  `protocol` includes the trailing colon (for example `"https:"`). -/
structure URLParts where
  protocol : String
  hostname : String
deriving DecidableEq

/-- Is `c` an ASCII letter? -/
def asciiAlpha (c : Char) : Bool :=
  ('a' ≤ c && c ≤ 'z') || ('A' ≤ c && c ≤ 'Z')

/-- May `c` appear in a URL scheme after the first character? -/
def schemeChar (c : Char) : Bool :=
  asciiAlpha c || ('0' ≤ c && c ≤ '9') || c = '+' || c = '-' || c = '.'

/-- Split a character list at the first occurrence of `"://"`, returning the
part before it and the part after it. -/
def splitAtSchemeSep : List Char → Option (List Char × List Char)
  | [] => none
  | c :: rest =>
    if charsStartWith (c :: rest) [':', '/', '/'] then some ([], rest.drop 2)
    else
      match splitAtSchemeSep rest with
      | none => none
      | some (pre, post) => some (c :: pre, post)

/-- Model of the host `new URL(...)` constructor (an external browser API, not
part of this repository): a string of the form `scheme://host...` with a
non-empty scheme (ASCII letter first, then letters, digits, `+`, `-`, `.`) and
a non-empty host (the characters after `://` up to the first `/`, `:`, `?` or
`#`) parses to `protocol = lowercased scheme + ":"` and `hostname = host`;
every other string fails to parse (the constructor throws).  This covers the
URL shapes the repository handles; exotic forms the real parser accepts (such
as scheme-only URLs without `//`) are conservatively treated as failures. -/
def parseURL (s : String) : Option URLParts :=
  match splitAtSchemeSep s.data with
  | none => none
  | some (schemeCs, rest) =>
    match schemeCs with
    | [] => none
    | c0 :: cs =>
      if asciiAlpha c0 && cs.all schemeChar then
        let hostCs := rest.takeWhile fun c => ¬(c = '/' ∨ c = ':' ∨ c = '?' ∨ c = '#')
        if hostCs = [] then none
        else some ⟨String.mk ((c0 :: cs).map lowerChar) ++ ":", String.mk hostCs⟩
      else none

/-- The hard-coded list of common TLDs used by subdomain grouping
(`domain-utils.js` line 41). -/
def commonTLDs : List String := ["com", "org", "net", "edu", "gov", "io", "co"]

/-- `extractDomain(url, options)` from `src/domain-utils.js` lines 11-56:
returns the fallback for non-string, empty or unparseable input, the scheme
name for `chrome:` / `chrome-extension:` URLs, and otherwise the lowercased
hostname with optional `www.` stripping and subdomain grouping.  The
`try { ... } catch { return fallback }` of the source is the `none` branch of
`parseURL`. -/
def extractDomain (url : JSVal) (opts : DomainOptions) : String :=
  match url with
  | .nullish => opts.fallback
  | .nonString => opts.fallback
  | .str s =>
    if s = "" then opts.fallback
    else
      match parseURL s with
      | none => opts.fallback
      | some u =>
        let hostname := lowerStr u.hostname
        if u.protocol = "chrome:" ∨ u.protocol = "chrome-extension:" then
          String.mk (removeFirstChar ':' u.protocol.data)
        else
          let h1 :=
            if opts.removeWww ∧ charsStartWith hostname.data ['w', 'w', 'w', '.'] then
              String.mk (hostname.data.drop 4)
            else hostname
          if opts.groupSubdomains then
            let parts := (splitOnChar '.' h1.data).map String.mk
            if parts.length > 2 then
              match parts.reverse with
              | lastPart :: secondLastPart :: _ =>
                if lastPart ∈ commonTLDs then secondLastPart ++ "." ++ lastPart
                else h1
              | _ => h1
            else h1
          else h1

/-- Coerce the tree's `url` field (a possibly missing string) into the
JavaScript value passed to `extractDomain`. -/
def jsOfOpt : Option String → JSVal
  | none => .nullish
  | some s => .str s

/-! ## Deterministic colors (`src/domain-utils.js`, generateDomainColor) -/

/-- Wrap an integer into signed 32-bit range; model of the `hash & hash`
coercion (JavaScript ToInt32). -/
def toInt32 (n : ℤ) : ℤ :=
  (n + 2 ^ 31) % 2 ^ 32 - 2 ^ 31

/-- One step of the rolling hash: `hash = ((hash << 5) - hash) + char` followed
by `hash = hash & hash`.  The shift operates on the 32-bit value; the
subtraction and addition are exact (they stay far below 2^53). -/
def hashStep (h : ℤ) (c : ℕ) : ℤ :=
  toInt32 (toInt32 (h * 32) - h + c)

/-- The 32-bit rolling hash of a domain string (`generateDomainColor`
lines 69-74). -/
def domainHash (s : String) : ℤ :=
  s.data.foldl (fun h c => hashStep h c.toNat) 0

/-- JavaScript `Math.round`: round half up. -/
def jsRound (q : ℚ) : ℤ := ⌊q + 1 / 2⌋

/-- One hexadecimal digit. -/
def hexDigit (n : ℕ) : Char :=
  if n < 10 then Char.ofNat ('0'.toNat + n) else Char.ofNat ('a'.toNat + (n - 10))

/-- A byte as two lowercase hex digits; model of
`.toString(16).padStart(2, '0')` for values in `0..255`. -/
def hexByte (n : ℤ) : String :=
  String.mk [hexDigit (n.toNat / 16 % 16), hexDigit (n.toNat % 16)]

/-- Remainder mod 12 on rationals; model of the JS `%` on the non-negative
values produced inside `hslToHex`. -/
def qMod12 (q : ℚ) : ℚ := q - 12 * ⌊q / 12⌋

/-- `hslToHex(h, s, l)` from `src/domain-utils.js` lines 91-100 over exact
rationals. -/
def hslToHex (h s l : ℚ) : String :=
  let l' := l / 100
  let a := s * min l' (1 - l') / 100
  let f : ℚ → String := fun n =>
    let k := qMod12 (n + h / 30)
    let color := l' - a * max (min (min (k - 3) (9 - k)) 1) (-1)
    hexByte (jsRound (255 * color))
  "#" ++ f 0 ++ f 8 ++ f 4

/-- `generateDomainColor(domain)` from `src/domain-utils.js` lines 63-82:
fixed gray for empty/unknown domains, otherwise an HSL color derived from the
rolling hash (hue `|hash| % 360`, saturation `65 + |hash| % 20`, lightness
`45 + |hash| % 20`). -/
def generateDomainColor (domain : String) : String :=
  if domain = "" ∨ domain = "unknown" then "#999999"
  else
    let h := domainHash domain
    hslToHex (|h| % 360 : ℤ) ((65 : ℤ) + |h| % 20 : ℤ) ((45 : ℤ) + |h| % 20 : ℤ)

/-! ## Navigation tree and domain groups (`src/domain-utils.js`, groupNodesByDomain) -/

/-- A navigation-tree node as `groupNodesByDomain` reads it: `id`, `url`,
`createdAt` and the ordered child list.  `url` and `createdAt` may be absent
(`Option`); a `null` node in the tree is not representable here, and behaves in
the source exactly like a node with no `url` (the traversal returns at once). -/
inductive NavNode where
  | mk (id : String) (url : Option String) (createdAt : Option ℚ)
       (children : List NavNode)

def NavNode.id : NavNode → String
  | .mk i _ _ _ => i

def NavNode.url : NavNode → Option String
  | .mk _ u _ _ => u

def NavNode.createdAt : NavNode → Option ℚ
  | .mk _ _ t _ => t

def NavNode.children : NavNode → List NavNode
  | .mk _ _ _ cs => cs

/-- The guard `if (!node || !node.url) return;`: a missing or empty `url` is
falsy in JavaScript. -/
def invalidUrl : Option String → Bool
  | none => true
  | some s => s = ""

/-- An element of the `originalPath` array: the root id or the literal
`'children'` (left), or a child index (right). -/
abbrev PathElem := String ⊕ ℕ

/-- One element of an enhanced node's path. -/
def pathStr (s : String) : PathElem := Sum.inl s

/-- One child-index element of an enhanced node's path. -/
def pathIdx (n : ℕ) : PathElem := Sum.inr n

/-- The enhanced node pushed into a domain group (`groupNodesByDomain`
lines 146-152): the original node's fields (`node`, copied by the spread),
plus the derived domain, the path and two zeroed position records. -/
structure ENode where
  node : NavNode
  domain : String
  originalPath : List PathElem
  clusterPosition : ℚ × ℚ
  globalPosition : ℚ × ℚ

/-- A domain group's running statistics (lines 134-139).  `totalVisits` is
initialised to zero and never updated by this module. -/
structure GroupStats where
  totalNodes : ℕ
  totalVisits : ℕ
  firstVisit : Option ℚ
  lastVisit : Option ℚ

/-- A domain group (lines 129-140).  `connections` is created as an empty set
and never filled by this module. -/
structure DomainGroup where
  domain : String
  nodes : List ENode
  connections : List String
  color : String
  stats : GroupStats

/-- An insertion-ordered JavaScript `Map` from domain keys to groups. -/
abbrev GroupsMap := List (String × DomainGroup)

/-- `Map.prototype.get` (first — and only — binding of the key). -/
def jsMapGet {β : Type} (m : List (String × β)) (k : String) : Option β :=
  (m.find? fun p => p.1 = k).map (·.2)

/-- `Map.prototype.set`: replace in place, or append a new binding. -/
def jsMapSet {β : Type} (m : List (String × β)) (k : String) (v : β) :
    List (String × β) :=
  match m with
  | [] => [(k, v)]
  | (k', v') :: rest =>
    if k' = k then (k, v) :: rest else (k', v') :: jsMapSet rest k v

/-- The keys of a JavaScript map, in order. -/
def jsMapKeys {β : Type} (m : List (String × β)) : List String := m.map (·.1)

/-- Track the earliest visit (lines 159-161): replaced when unset (or falsy,
JavaScript `!firstVisit`) or when the new timestamp is smaller. -/
def updFirst (cur : Option ℚ) (t : ℚ) : Option ℚ :=
  match cur with
  | none => some t
  | some f => if f = 0 then some t else if t < f then some t else some f

/-- Track the latest visit (lines 162-164). -/
def updLast (cur : Option ℚ) (t : ℚ) : Option ℚ :=
  match cur with
  | none => some t
  | some f => if f = 0 then some t else if f < t then some t else some f

/-- JavaScript truthiness of the optional `createdAt` number (0 is falsy). -/
def optTruthy : Option ℚ → Bool
  | none => false
  | some t => !(t = 0)

/-- Update a group's statistics for one appended node (lines 157-165). -/
def updStats (s : GroupStats) (n : NavNode) : GroupStats :=
  let s1 := { s with totalNodes := s.totalNodes + 1 }
  match n.createdAt with
  | some t =>
    if t ≠ 0 then
      { s1 with firstVisit := updFirst s1.firstVisit t,
                lastVisit := updLast s1.lastVisit t }
    else s1
  | none => s1

/-- A freshly initialised domain group (lines 129-140). -/
def freshGroup (domain : String) : DomainGroup :=
  { domain := domain
    nodes := []
    connections := []
    color := generateDomainColor domain
    stats := { totalNodes := 0, totalVisits := 0, firstVisit := none, lastVisit := none } }

/-- Append one enhanced node to its group and update the statistics
(lines 143-165); the group is created on first encounter (lines 128-141). -/
def addNodeToGroups (g : GroupsMap) (domain : String) (n : NavNode)
    (path : List PathElem) : GroupsMap :=
  let grp := match jsMapGet g domain with
    | some grp => grp
    | none => freshGroup domain
  let e : ENode :=
    { node := n, domain := domain, originalPath := path
      clusterPosition := (0, 0), globalPosition := (0, 0) }
  jsMapSet g domain { grp with nodes := grp.nodes ++ [e], stats := updStats grp.stats n }

/-- The grouping options destructured by `groupNodesByDomain` (lines 109-113),
with the source's defaults. -/
structure GroupingOptions where
  removeWww : Bool := true
  groupSubdomains : Bool := false
  minClusterSize : ℕ := 1

/-- The source's default grouping options. -/
def defaultGroupingOptions : GroupingOptions := {}

mutual
/-- The recursive `collectNodes(node, path)` of `groupNodesByDomain`
(lines 122-173), with the mutable `domainGroups` map passed explicitly: skip
the whole subtree of a node with a falsy `url`, otherwise resolve the domain,
file the enhanced node, and recurse into the children with extended paths. -/
def collectNodes (opts : GroupingOptions) (g : GroupsMap) (n : NavNode)
    (path : List PathElem) : GroupsMap :=
  match n with
  | .mk idv url t cs =>
    if invalidUrl url then g
    else
      let domain := extractDomain (jsOfOpt url)
        { removeWww := opts.removeWww, groupSubdomains := opts.groupSubdomains }
      let g1 := addNodeToGroups g domain (.mk idv url t cs) path
      collectChildren opts g1 cs (path ++ [pathStr "children"]) 0

/-- The `node.children.forEach((child, index) => ...)` loop of `collectNodes`
(lines 168-172): each child is visited with path `[...path, 'children', index]`
(the shared `'children'` element is already appended by the caller). -/
def collectChildren (opts : GroupingOptions) (g : GroupsMap)
    (ns : List NavNode) (pathC : List PathElem) (i : ℕ) : GroupsMap :=
  match ns with
  | [] => g
  | c :: rest =>
    collectChildren opts (collectNodes opts g c (pathC ++ [pathIdx i])) rest pathC (i + 1)
end

/-- The `Object.values(tabTree).forEach(...)` loop (lines 176-180). -/
def collectRoots (opts : GroupingOptions) (g : GroupsMap)
    (roots : List NavNode) : GroupsMap :=
  match roots with
  | [] => g
  | r :: rest => collectRoots opts (collectNodes opts g r [pathStr r.id]) rest

/-- `groupNodesByDomain(tabTree, options)` from `src/domain-utils.js`
lines 108-194.  The tree object is modelled by its list of root nodes
(`Object.values`); a non-object tree corresponds to the empty list.  When
`minClusterSize > 1` a second pass keeps only the groups with at least
`minClusterSize` nodes, preserving order. -/
def groupNodesByDomain (roots : List NavNode) (opts : GroupingOptions) : GroupsMap :=
  let domainGroups := collectRoots opts [] roots
  if opts.minClusterSize > 1 then
    domainGroups.filter fun p => p.2.nodes.length ≥ opts.minClusterSize
  else
    domainGroups

/-! ## Connection Mapper (`src/connection-mapper.js`) -/

/-- The options read by `buildDomainConnections` (lines 365-370) and
`calculateConnectionStrength` (lines 440-445), with the source's defaults.
The two functions destructure different subsets of this record. -/
structure ConnOptions where
  includeIntraDomain : Bool := false
  weightByFrequency : Bool := true
  weightByRecency : Bool := true
  minConnectionStrength : ℚ := 1 / 10
  frequencyWeight : ℚ := 6 / 10
  recencyWeight : ℚ := 4 / 10

/-- The source's default connection options. -/
def defaultConnOptions : ConnOptions := {}

/-- JavaScript `x || d` on an optional number: `null`, `undefined` and `0` are
falsy. -/
def jsOrNum (o : Option ℚ) (dflt : ℚ) : ℚ :=
  match o with
  | none => dflt
  | some t => if t = 0 then dflt else t

/-- JavaScript `t || 0` on a number (the identity, written as in the source's
`c.timestamp || 0`). -/
def jsOr0 (t : ℚ) : ℚ := if t = 0 then 0 else t

/-- One entry of a pending connection's `connections` array (lines 401-407). -/
structure Contribution where
  parentNode : ENode
  childNode : NavNode
  timestamp : ℚ
  parentId : String
  childId : String

/-- An accumulated edge in the `connectionMap` (lines 391-397).
`totalStrength` is initialised to zero and never updated. -/
structure PendingConn where
  source : String
  target : String
  connections : List Contribution
  frequency : ℕ
  totalStrength : ℚ

/-- An output connection: the accumulated edge spread together with its
strength and bidirectionality (lines 421-425). -/
structure Connection extends PendingConn where
  strength : ℚ
  bidirectional : Bool

/-- The mutable `connectionMap`, keyed by `` `${source}->${target}` ``. -/
abbrev ConnMap := List (String × PendingConn)

/-- Process one parent→child navigation (lines 381-409): resolve the child's
domain (with default extraction options — the source passes none), skip
intra-domain edges unless requested, then accumulate the contribution under
the directed key, creating the entry on first encounter. -/
def addChildEdge (opts : ConnOptions) (now : ℚ) (groupDomain : String)
    (m : ConnMap) (node : ENode) (child : NavNode) : ConnMap :=
  let childDomain := extractDomain (jsOfOpt child.url) defaultDomainOptions
  if ¬opts.includeIntraDomain ∧ childDomain = groupDomain then m
  else
    let key := groupDomain ++ "->" ++ childDomain
    let conn := match jsMapGet m key with
      | some c => c
      | none =>
        { source := groupDomain, target := childDomain, connections := []
          frequency := 0, totalStrength := 0 }
    let contrib : Contribution :=
      { parentNode := node, childNode := child
        timestamp := jsOrNum child.createdAt now
        parentId := node.node.id, childId := child.id }
    jsMapSet m key
      { conn with connections := conn.connections ++ [contrib]
                  frequency := conn.frequency + 1 }

/-- The `node.children.forEach(...)` loop (line 381). -/
def addNodeEdges (opts : ConnOptions) (now : ℚ) (groupDomain : String)
    (m : ConnMap) (node : ENode) : ConnMap :=
  node.node.children.foldl (fun m c => addChildEdge opts now groupDomain m node c) m

/-- The `group.nodes.forEach(...)` loop (line 377). -/
def addGroupEdges (opts : ConnOptions) (now : ℚ) (m : ConnMap)
    (grp : DomainGroup) : ConnMap :=
  grp.nodes.foldl (fun m n => addNodeEdges opts now grp.domain m n) m

/-- The `domainGroups.forEach(...)` loop (lines 376-411), building the full
`connectionMap`. -/
def buildConnMap (opts : ConnOptions) (now : ℚ) (domainGroups : GroupsMap) : ConnMap :=
  domainGroups.foldl (fun m p => addGroupEdges opts now m p.2) []

/-- `Math.max(...)` over a list; the source only applies it to the non-empty
`connections` array of a map entry, so the empty case (JS `-Infinity`) is
unreachable and mapped to 0 here. -/
def listMax : List ℚ → ℚ
  | [] => 0
  | x :: xs => xs.foldl max x

/-- `calculateConnectionStrength(connection, domainGroups, options)` from
`src/connection-mapper.js` lines 439-474, with `Date.now()` passed as `now`.
When the looked-up source group has no nodes, JS divides by zero: with a
positive `frequency` that is `Infinity` and `Math.min(Infinity, 1) = 1`, which
the `maxPossible = 0` branch reflects (a zero frequency never reaches this
code from `buildDomainConnections`). -/
def calculateConnectionStrength (conn : PendingConn) (domainGroups : GroupsMap)
    (opts : ConnOptions) (now : ℚ) : ℚ :=
  let s1 : ℚ := 0
  let s2 :=
    if opts.weightByFrequency then
      let maxPossibleConnections : ℕ :=
        match jsMapGet domainGroups conn.source with
        | some g => g.nodes.length
        | none => 1
      let frequencyScore : ℚ :=
        if maxPossibleConnections = 0 then 1
        else min ((conn.frequency : ℚ) / maxPossibleConnections) 1
      s1 + frequencyScore * opts.frequencyWeight
    else s1
  let s3 :=
    if opts.weightByRecency then
      let dayInMs : ℚ := 24 * 60 * 60 * 1000
      let mostRecentTimestamp := listMax (conn.connections.map fun c => jsOr0 c.timestamp)
      let daysSinceLastConnection := (now - mostRecentTimestamp) / dayInMs
      let recencyScore := max 0 (1 - daysSinceLastConnection / 30)
      s2 + recencyScore * opts.recencyWeight
    else s2
  max 0 (min 1 s3)

/-- `checkBidirectional(connection, connectionMap)` (lines 482-485). -/
def checkBidirectional (conn : PendingConn) (m : ConnMap) : Bool :=
  (jsMapGet m (conn.target ++ "->" ++ conn.source)).isSome

/-- Stable insertion of `a` into a sorted list: `a` goes before the first
element `b` with comparator value `cmp a b ≤ 0` (encoded as `le a b`). -/
def insertCmpLE {α : Type} (le : α → α → Bool) (a : α) : List α → List α
  | [] => [a]
  | b :: bs => if le a b then a :: b :: bs else b :: insertCmpLE le a bs

/-- A stable comparator sort, modelling `Array.prototype.sort` (stable since
ES2019). -/
def sortCmpLE {α : Type} (le : α → α → Bool) : List α → List α
  | [] => []
  | a :: as => insertCmpLE le a (sortCmpLE le as)

/-- `buildDomainConnections(domainGroups, options)` from
`src/connection-mapper.js` lines 364-430: accumulate the `connectionMap`,
score each entry (forwarding only `weightByFrequency` / `weightByRecency` to
the strength calculation, as the source's `{ weightByFrequency,
weightByRecency }` literal does), keep the entries at or above
`minConnectionStrength`, mark bidirectionality, and sort by descending
strength (`(a, b) => b.strength - a.strength`). -/
def buildDomainConnections (domainGroups : GroupsMap) (opts : ConnOptions)
    (now : ℚ) : List Connection :=
  let connectionMap := buildConnMap opts now domainGroups
  let connections := connectionMap.foldl
    (fun acc p =>
      let strength := calculateConnectionStrength p.2 domainGroups
        { weightByFrequency := opts.weightByFrequency
          weightByRecency := opts.weightByRecency } now
      if strength ≥ opts.minConnectionStrength then
        acc ++ [{ toPendingConn := p.2, strength := strength
                  bidirectional := checkBidirectional p.2 connectionMap }]
      else acc)
    []
  sortCmpLE (fun a b => b.strength ≤ a.strength) connections

/-! ## Tree measures used to state the partition property -/

mutual
/-- The total number of nodes of a subtree (the claim's "total node count"). -/
def countNode : NavNode → ℕ
  | .mk _ _ _ cs => 1 + countList cs

/-- Total node count of a list of subtrees. -/
def countList : List NavNode → ℕ
  | [] => 0
  | n :: rest => countNode n + countList rest
end

mutual
/-- The number of nodes the traversal actually files: a node with a falsy
`url` contributes nothing, and neither does its subtree. -/
def vcount : NavNode → ℕ
  | .mk _ u _ cs => if invalidUrl u then 0 else 1 + vcountList cs

/-- `vcount` over a list of subtrees. -/
def vcountList : List NavNode → ℕ
  | [] => 0
  | n :: rest => vcount n + vcountList rest
end

mutual
/-- Well-formedness: every node of the subtree has a non-empty `url` (the
shape the data model gives every NavigationNode). -/
def wfNode : NavNode → Bool
  | .mk _ u _ cs => !invalidUrl u && wfList cs

/-- `wfNode` over a list of subtrees. -/
def wfList : List NavNode → Bool
  | [] => true
  | n :: rest => wfNode n && wfList rest
end

/-- Total number of enhanced nodes filed across all groups of a map. -/
def totalLen (g : GroupsMap) : ℕ :=
  (g.map fun p => p.2.nodes.length).sum

/-- The structural invariant of the accumulator map: domain keys are distinct,
each group records its own key as its domain, and every node filed in a group
carries that group's domain. -/
def goodMap (g : GroupsMap) : Prop :=
  (jsMapKeys g).Nodup ∧ ∀ p ∈ g, p.2.domain = p.1 ∧ ∀ e ∈ p.2.nodes, e.domain = p.1

/-! ### Association-list lemmas for the JavaScript map operations -/


theorem jsMapGet_cons {β : Type} (hd : String × β) (tl : List (String × β)) (k : String) :
    jsMapGet (hd :: tl) k = if hd.1 = k then some hd.2 else jsMapGet tl k := by
  by_cases h : hd.1 = k <;> simp [jsMapGet, List.find?, h]

theorem jsMapSet_cons {β : Type} (hd : String × β) (tl : List (String × β))
    (k : String) (v : β) :
    jsMapSet (hd :: tl) k v = if hd.1 = k then (k, v) :: tl else hd :: jsMapSet tl k v := by
  rcases hd with ⟨k', v'⟩
  rfl

theorem jsMapSet_mem {β : Type} (g : List (String × β)) (k : String) (v : β) :
    ∀ p ∈ jsMapSet g k v, p = (k, v) ∨ p ∈ g := by
  induction g with
  | nil => simp [jsMapSet]
  | cons hd tl ih =>
    intro p hp
    rw [jsMapSet_cons] at hp
    by_cases hk : hd.1 = k
    · simp only [hk, if_true, List.mem_cons] at hp
      rcases hp with h | h
      · exact Or.inl h
      · exact Or.inr (List.mem_cons_of_mem _ h)
    · simp only [hk, if_false, List.mem_cons] at hp
      rcases hp with h | h
      · exact Or.inr (by simp [h])
      · rcases ih p h with h' | h'
        · exact Or.inl h'
        · exact Or.inr (List.mem_cons_of_mem _ h')

theorem jsMapSet_keys_subset {β : Type} (g : List (String × β)) (k : String) (v : β) :
    ∀ x ∈ jsMapKeys (jsMapSet g k v), x ∈ jsMapKeys g ∨ x = k := by
  intro x hx
  simp only [jsMapKeys, List.mem_map] at hx
  obtain ⟨p, hp, hpx⟩ := hx
  rcases jsMapSet_mem g k v p hp with h | h
  · right
    rw [← hpx, h]
  · left
    simp only [jsMapKeys, List.mem_map]
    exact ⟨p, h, hpx⟩

theorem jsMapSet_keys_nodup {β : Type} (g : List (String × β)) (k : String) (v : β)
    (h : (jsMapKeys g).Nodup) : (jsMapKeys (jsMapSet g k v)).Nodup := by
  induction g with
  | nil => simp [jsMapSet, jsMapKeys]
  | cons hd tl ih =>
    simp only [jsMapKeys, List.map_cons, List.nodup_cons] at h
    rw [jsMapSet_cons]
    by_cases hk : hd.1 = k
    · simp only [hk, if_true, jsMapKeys, List.map_cons, List.nodup_cons]
      exact ⟨hk ▸ h.1, h.2⟩
    · simp only [hk, if_false, jsMapKeys, List.map_cons, List.nodup_cons]
      refine ⟨fun hx => ?_, ih h.2⟩
      rcases jsMapSet_keys_subset tl k v hd.1 hx with h' | h'
      · exact h.1 h'
      · exact hk h'

theorem jsMapGet_mem {β : Type} (g : List (String × β)) (k : String) (v : β)
    (h : jsMapGet g k = some v) : (k, v) ∈ g := by
  induction g with
  | nil => simp [jsMapGet] at h
  | cons hd tl ih =>
    rw [jsMapGet_cons] at h
    by_cases hk : hd.1 = k
    · simp only [hk, if_true, Option.some_inj] at h
      have : (k, v) = hd := by
        rcases hd with ⟨a, b⟩
        simp_all
      rw [this]
      exact List.mem_cons_self _ _
    · simp only [hk, if_false] at h
      exact List.mem_cons_of_mem _ (ih h)

theorem totalLen_jsMapSet_new (g : GroupsMap) (k : String) (v : DomainGroup)
    (h : jsMapGet g k = none) :
    totalLen (jsMapSet g k v) = totalLen g + v.nodes.length := by
  induction g with
  | nil => simp [jsMapSet, totalLen]
  | cons hd tl ih =>
    rw [jsMapGet_cons] at h
    by_cases hk : hd.1 = k
    · simp [hk] at h
    · simp only [hk, if_false] at h
      rw [jsMapSet_cons]
      simp only [hk, if_false, totalLen, List.map_cons, List.sum_cons] at ih ⊢
      rw [ih h]
      omega

theorem totalLen_jsMapSet_old (g : GroupsMap) (k : String) (v grp : DomainGroup)
    (h : jsMapGet g k = some grp) :
    totalLen (jsMapSet g k v) + grp.nodes.length = totalLen g + v.nodes.length := by
  induction g with
  | nil => simp [jsMapGet] at h
  | cons hd tl ih =>
    rw [jsMapGet_cons] at h
    rw [jsMapSet_cons]
    by_cases hk : hd.1 = k
    · simp only [hk, if_true, Option.some_inj] at h
      simp only [hk, if_true, totalLen, List.map_cons, List.sum_cons, h]
      omega
    · simp only [hk, if_false] at h
      simp only [hk, if_false, totalLen, List.map_cons, List.sum_cons] at ih ⊢
      have := ih h
      omega

theorem totalLen_addNodeToGroups (g : GroupsMap) (d : String) (n : NavNode)
    (path : List PathElem) :
    totalLen (addNodeToGroups g d n path) = totalLen g + 1 := by
  rw [addNodeToGroups]
  cases h : jsMapGet g d with
  | none =>
    rw [totalLen_jsMapSet_new g d _ h]
    simp [freshGroup]
  | some grp =>
    show totalLen (jsMapSet g d
      { grp with
        nodes := grp.nodes ++
          [{ node := n, domain := d, originalPath := path
             clusterPosition := (0, 0), globalPosition := (0, 0) }]
        stats := updStats grp.stats n }) = totalLen g + 1
    have := totalLen_jsMapSet_old g d
      { grp with
        nodes := grp.nodes ++
          [{ node := n, domain := d, originalPath := path
             clusterPosition := (0, 0), globalPosition := (0, 0) }]
        stats := updStats grp.stats n } grp h
    simp only [List.length_append, List.length_cons, List.length_nil] at this
    omega

theorem goodMap_addNodeToGroups (g : GroupsMap) (d : String) (n : NavNode)
    (path : List PathElem) (h : goodMap g) :
    goodMap (addNodeToGroups g d n path) := by
  obtain ⟨hnd, hmem⟩ := h
  rw [addNodeToGroups]
  cases hget : jsMapGet g d with
  | none =>
    refine ⟨jsMapSet_keys_nodup _ _ _ hnd, fun p hp => ?_⟩
    rcases jsMapSet_mem _ _ _ p hp with hp' | hp'
    · subst hp'
      refine ⟨rfl, fun e he => ?_⟩
      simp only [freshGroup, List.nil_append, List.mem_singleton] at he
      simp [he]
    · exact hmem p hp'
  | some grp =>
    have hgrp := hmem _ (jsMapGet_mem g d grp hget)
    refine ⟨jsMapSet_keys_nodup _ _ _ hnd, fun p hp => ?_⟩
    rcases jsMapSet_mem _ _ _ p hp with hp' | hp'
    · subst hp'
      refine ⟨hgrp.1, fun e he => ?_⟩
      simp only [List.mem_append, List.mem_singleton] at he
      rcases he with he | he
      · exact hgrp.2 e he
      · simp [he]
    · exact hmem p hp'


/-! ### The traversal files exactly the valid nodes, preserving the map invariant -/

theorem collect_step : ∀ (N : ℕ),
    (∀ (n : NavNode), sizeOf n ≤ N → ∀ (opts : GroupingOptions) (g : GroupsMap)
        (path : List PathElem), goodMap g →
      goodMap (collectNodes opts g n path) ∧
      totalLen (collectNodes opts g n path) = totalLen g + vcount n) ∧
    (∀ (ns : List NavNode), sizeOf ns ≤ N → ∀ (opts : GroupingOptions) (g : GroupsMap)
        (pathC : List PathElem) (i : ℕ), goodMap g →
      goodMap (collectChildren opts g ns pathC i) ∧
      totalLen (collectChildren opts g ns pathC i) = totalLen g + vcountList ns) := by
  intro N
  induction N using Nat.strong_induction_on with
  | _ N IH =>
  constructor
  · rintro ⟨idv, u, t, cs⟩ hle opts g path hg
    rw [collectNodes, vcount]
    by_cases hu : invalidUrl u = true
    · simpa [hu] using hg
    · simp only [hu, if_false, Bool.false_eq_true]
      have hszcs : sizeOf cs < N := by
        have : sizeOf cs < sizeOf (NavNode.mk idv u t cs) := by
          simp only [NavNode.mk.sizeOf_spec]
          omega
        omega
      have hadd := goodMap_addNodeToGroups g
        (extractDomain (jsOfOpt u)
          { removeWww := opts.removeWww, groupSubdomains := opts.groupSubdomains
            fallback := "unknown" })
        (.mk idv u t cs) path hg
      have hrec := (IH (sizeOf cs) hszcs).2 cs le_rfl opts _ (path ++ [pathStr "children"]) 0 hadd
      refine ⟨hrec.1, ?_⟩
      rw [hrec.2, totalLen_addNodeToGroups]
      omega
  · rintro (_ | ⟨c, rest⟩) hle opts g pathC i hg
    · rw [collectChildren, vcountList]
      exact ⟨hg, by omega⟩
    · have hszc : sizeOf c < N := by
        have : sizeOf c < sizeOf (c :: rest) := by
          simp only [List.cons.sizeOf_spec]
          omega
        omega
      have hszr : sizeOf rest < N := by
        have : sizeOf rest < sizeOf (c :: rest) := by
          simp only [List.cons.sizeOf_spec]
          omega
        omega
      rw [collectChildren, vcountList]
      have h1 := (IH (sizeOf c) hszc).1 c le_rfl opts g (pathC ++ [pathIdx i]) hg
      have h2 := (IH (sizeOf rest) hszr).2 rest le_rfl opts _ pathC (i + 1) h1.1
      refine ⟨h2.1, ?_⟩
      rw [h2.2, h1.2]
      omega

theorem vcount_step : ∀ (N : ℕ),
    (∀ (n : NavNode), sizeOf n ≤ N → wfNode n = true → vcount n = countNode n) ∧
    (∀ (ns : List NavNode), sizeOf ns ≤ N → wfList ns = true →
      vcountList ns = countList ns) := by
  intro N
  induction N using Nat.strong_induction_on with
  | _ N IH =>
  constructor
  · rintro ⟨idv, u, t, cs⟩ hle hwf
    rw [wfNode] at hwf
    simp only [Bool.and_eq_true, Bool.not_eq_eq_eq_not, Bool.not_true] at hwf
    have hszcs : sizeOf cs < N := by
      have : sizeOf cs < sizeOf (NavNode.mk idv u t cs) := by
        simp only [NavNode.mk.sizeOf_spec]
        omega
      omega
    rw [vcount, countNode, hwf.1]
    simp only [Bool.false_eq_true, if_false]
    rw [(IH (sizeOf cs) hszcs).2 cs le_rfl hwf.2]
  · rintro (_ | ⟨c, rest⟩) hle hwf
    · rw [vcountList, countList]
    · rw [wfList] at hwf
      simp only [Bool.and_eq_true] at hwf
      have hszc : sizeOf c < N := by
        have : sizeOf c < sizeOf (c :: rest) := by
          simp only [List.cons.sizeOf_spec]
          omega
        omega
      have hszr : sizeOf rest < N := by
        have : sizeOf rest < sizeOf (c :: rest) := by
          simp only [List.cons.sizeOf_spec]
          omega
        omega
      rw [vcountList, countList, (IH (sizeOf c) hszc).1 c le_rfl hwf.1,
        (IH (sizeOf rest) hszr).2 rest le_rfl hwf.2]

theorem collectRoots_props (roots : List NavNode) :
    ∀ (opts : GroupingOptions) (g : GroupsMap), goodMap g →
      goodMap (collectRoots opts g roots) ∧
      totalLen (collectRoots opts g roots) = totalLen g + vcountList roots := by
  induction roots with
  | nil =>
    intro opts g hg
    rw [collectRoots, vcountList]
    exact ⟨hg, by omega⟩
  | cons r rest ih =>
    intro opts g hg
    rw [collectRoots, vcountList]
    have h1 := (collect_step (sizeOf r)).1 r le_rfl opts g [pathStr r.id] hg
    have h2 := ih opts _ h1.1
    refine ⟨h2.1, ?_⟩
    rw [h2.2, h1.2]
    omega


/-! ## Claim C5: extractDomain never throws and falls back on bad input -/

/-- C5: for every input url (including non-string, empty, null, or unparseable
values) and every options object, `extractDomain` returns a domain key and
never throws (it is a total function into `String`); on parse failure or
non-string/empty input it returns the configured fallback, and the default
fallback is `"unknown"`. -/
theorem claim_C5_extractDomain_fallback (v : JSVal) (opts : DomainOptions)
    (h : v = .nullish ∨ v = .nonString ∨ v = .str "" ∨
      ∃ s, v = .str s ∧ parseURL s = none) :
    extractDomain v opts = opts.fallback ∧
    extractDomain v defaultDomainOptions = "unknown" := by
  have hdef : defaultDomainOptions.fallback = "unknown" := rfl
  rcases h with h | h | h | ⟨s, hs, hp⟩ <;> subst_vars
  · exact ⟨rfl, rfl⟩
  · exact ⟨rfl, rfl⟩
  · exact ⟨rfl, rfl⟩
  · constructor <;> simp [extractDomain, hp, hdef]

/-- C5 witness: the unparseable string `"not a url"` resolves to the
configured fallback, and to `"unknown"` under the defaults. -/
theorem claim_C5_witness :
    extractDomain (.str "not a url") { fallback := "custom" } = "custom" ∧
    extractDomain (.str "not a url") defaultDomainOptions = "unknown" := by
  have h := claim_C5_extractDomain_fallback (.str "not a url") { fallback := "custom" }
    (Or.inr (Or.inr (Or.inr ⟨"not a url", rfl, by decide⟩)))
  exact h

/-! ## Claim C1: domain groups partition the tree's nodes -/

/-- C1: for every navigation tree whose nodes all carry a non-empty `url`
(the shape the data model guarantees) and options with `minClusterSize = 1`
(the default), the groups returned by `groupNodesByDomain` partition the
tree's nodes: the group sizes sum to the total node count, the domain keys
are pairwise distinct, and every node filed in a group carries exactly that
group's domain (so each node belongs to exactly one group). -/
theorem claim_C1_groups_partition (roots : List NavNode) (opts : GroupingOptions)
    (hmin : opts.minClusterSize = 1) (hwf : wfList roots = true) :
    totalLen (groupNodesByDomain roots opts) = countList roots ∧
    (jsMapKeys (groupNodesByDomain roots opts)).Nodup ∧
    ∀ p ∈ groupNodesByDomain roots opts, p.2.domain = p.1 ∧
      ∀ e ∈ p.2.nodes, e.domain = p.1 := by
  have hg : groupNodesByDomain roots opts = collectRoots opts [] roots := by
    rw [groupNodesByDomain]
    simp [hmin]
  have h0 : goodMap ([] : GroupsMap) := ⟨List.nodup_nil, by simp⟩
  have h1 := collectRoots_props roots opts [] h0
  have h2 := (vcount_step (sizeOf roots)).2 roots le_rfl hwf
  rw [hg]
  refine ⟨?_, h1.1.1, h1.1.2⟩
  rw [h1.2, h2]
  simp [totalLen]

/-- A two-root, three-node tree used as the concrete partition witness. -/
def witnessForest : List NavNode :=
  [.mk "1-1" (some "https://github.com/a") (some 1000)
    [.mk "1-2" (some "https://github.com/b") (some 2000) []],
   .mk "2-1" (some "https://stackoverflow.com/q") (some 3000) []]

/-- C1 witness: the partition property evaluated on a concrete 3-node forest. -/
theorem claim_C1_witness :
    totalLen (groupNodesByDomain witnessForest defaultGroupingOptions) =
      countList witnessForest ∧
    (jsMapKeys (groupNodesByDomain witnessForest defaultGroupingOptions)).Nodup ∧
    ∀ p ∈ groupNodesByDomain witnessForest defaultGroupingOptions,
      p.2.domain = p.1 ∧ ∀ e ∈ p.2.nodes, e.domain = p.1 :=
  claim_C1_groups_partition witnessForest defaultGroupingOptions rfl
    (by simp [witnessForest, wfList, wfNode, invalidUrl])

/-! ## Claim C10: a node without a url is skipped with its whole subtree -/

/-- C10: in the traversal of `groupNodesByDomain`, a node whose `url` is
missing or empty is excluded together with its entire subtree — the traversal
returns the accumulator unchanged (so no descendant of such a node appears in
any domain group), and the loop over a child list containing such a node
simply moves on to the remaining siblings. -/
theorem claim_C10_invalid_node_skipped (opts : GroupingOptions) (g : GroupsMap)
    (n : NavNode) (path pathC : List PathElem) (rest : List NavNode) (i : ℕ)
    (h : invalidUrl n.url = true) :
    collectNodes opts g n path = g ∧
    collectChildren opts g (n :: rest) pathC i =
      collectChildren opts g rest pathC (i + 1) := by
  obtain ⟨idv, u, t, cs⟩ := n
  have h' : invalidUrl u = true := h
  have h1 : collectNodes opts g (NavNode.mk idv u t cs) path = g := by
    rw [collectNodes, h']
    simp
  refine ⟨h1, ?_⟩
  rw [collectChildren]
  rw [show collectNodes opts g (NavNode.mk idv u t cs) (pathC ++ [pathIdx i]) = g from by
    rw [collectNodes, h']
    simp]

/-- C10 witness: a url-less node with a child is skipped entirely while its
sibling is still traversed. -/
theorem claim_C10_witness :
    collectNodes defaultGroupingOptions []
      (.mk "3-1" none none [.mk "3-2" (some "https://github.com/c") none []]) [] = [] ∧
    collectChildren defaultGroupingOptions []
      [.mk "3-1" none none [.mk "3-2" (some "https://github.com/c") none []],
       .mk "3-3" (some "https://github.com/d") none []] [] 0 =
      collectChildren defaultGroupingOptions []
        [.mk "3-3" (some "https://github.com/d") none []] [] 1 :=
  claim_C10_invalid_node_skipped defaultGroupingOptions []
    (.mk "3-1" none none [.mk "3-2" (some "https://github.com/c") none []])
    [] [] [.mk "3-3" (some "https://github.com/d") none []] 0 (by decide)

/-! ## Helper lemmas for the connection mapper claims -/

theorem mem_insertCmpLE {α : Type} (le : α → α → Bool) (a x : α) :
    ∀ l, x ∈ insertCmpLE le a l → x = a ∨ x ∈ l := by
  intro l
  induction l with
  | nil =>
    intro h
    simpa [insertCmpLE] using h
  | cons b bs ih =>
    intro h
    rw [insertCmpLE] at h
    cases hle : le a b with
    | true =>
      rw [hle] at h
      simp only [if_true, List.mem_cons] at h
      rcases h with h | h | h
      · exact Or.inl h
      · exact Or.inr (by simp [h])
      · exact Or.inr (List.mem_cons_of_mem _ h)
    | false =>
      rw [hle] at h
      simp only [Bool.false_eq_true, if_false, List.mem_cons] at h
      rcases h with h | h
      · exact Or.inr (by simp [h])
      · rcases ih h with h' | h'
        · exact Or.inl h'
        · exact Or.inr (List.mem_cons_of_mem _ h')

theorem mem_sortCmpLE {α : Type} (le : α → α → Bool) (x : α) :
    ∀ l, x ∈ sortCmpLE le l → x ∈ l := by
  intro l
  induction l with
  | nil =>
    intro h
    simp [sortCmpLE] at h
  | cons b bs ih =>
    intro h
    rw [sortCmpLE] at h
    rcases mem_insertCmpLE le b x _ h with h' | h'
    · simp [h']
    · exact List.mem_cons_of_mem _ (ih h')

theorem foldl_preserve {α β : Type} (P : β → Prop) (f : β → α → β)
    (h : ∀ b a, P b → P (f b a)) : ∀ (l : List α) (b : β), P b → P (l.foldl f b) := by
  intro l
  induction l with
  | nil => exact fun b hb => hb
  | cons a as ih => exact fun b hb => ih _ (h b a hb)

theorem mem_condPush {α β : Type} (cond : α → Prop) [DecidablePred cond] (f : α → β) :
    ∀ (l : List α) (acc : List β) (x : β),
      x ∈ l.foldl (fun acc p => if cond p then acc ++ [f p] else acc) acc →
      x ∈ acc ∨ ∃ p, p ∈ l ∧ x = f p := by
  intro l
  induction l with
  | nil => exact fun acc x hx => Or.inl hx
  | cons p rest ih =>
    intro acc x hx
    simp only [List.foldl_cons] at hx
    by_cases hc : cond p
    · rw [if_pos hc] at hx
      rcases ih _ _ hx with h | ⟨q, hq, hxq⟩
      · rcases List.mem_append.mp h with h | h
        · exact Or.inl h
        · exact Or.inr ⟨p, by simp, by simpa using h⟩
      · exact Or.inr ⟨q, List.mem_cons_of_mem _ hq, hxq⟩
    · rw [if_neg hc] at hx
      rcases ih _ _ hx with h | ⟨q, hq, hxq⟩
      · exact Or.inl h
      · exact Or.inr ⟨q, List.mem_cons_of_mem _ hq, hxq⟩

/-- Every strength computed by `calculateConnectionStrength` is clamped into
`[0, 1]` by the final `Math.max(0, Math.min(1, strength))`. -/
theorem calculateConnectionStrength_bounds (c : PendingConn) (domainGroups : GroupsMap)
    (opts : ConnOptions) (now : ℚ) :
    0 ≤ calculateConnectionStrength c domainGroups opts now ∧
    calculateConnectionStrength c domainGroups opts now ≤ 1 := by
  rw [calculateConnectionStrength]
  constructor
  · exact le_max_left 0 _
  · exact max_le (by norm_num) (min_le_left 1 _)

/-- Every entry of the accumulated `connectionMap` has been incremented at
least once: an entry is created and pushed to in the same iteration. -/
theorem buildConnMap_freq (opts : ConnOptions) (now : ℚ) (domainGroups : GroupsMap) :
    ∀ p ∈ buildConnMap opts now domainGroups, 1 ≤ p.2.frequency := by
  unfold buildConnMap
  refine foldl_preserve (fun (m : ConnMap) => ∀ p ∈ m, 1 ≤ p.2.frequency)
    (fun m p => addGroupEdges opts now m p.2) ?_ domainGroups [] (by simp)
  intro m grp hm
  unfold addGroupEdges
  refine foldl_preserve (fun (m : ConnMap) => ∀ p ∈ m, 1 ≤ p.2.frequency)
    (fun m n => addNodeEdges opts now grp.2.domain m n) ?_ grp.2.nodes m hm
  intro m node hm'
  unfold addNodeEdges
  refine foldl_preserve (fun (m : ConnMap) => ∀ p ∈ m, 1 ≤ p.2.frequency)
    (fun m c => addChildEdge opts now grp.2.domain m node c) ?_ node.node.children m hm'
  intro m child hm''
  simp only [addChildEdge]
  by_cases hskip : ¬opts.includeIntraDomain ∧
      extractDomain (jsOfOpt child.url) defaultDomainOptions = grp.2.domain
  · rw [if_pos hskip]
    exact hm''
  · rw [if_neg hskip]
    intro p hp
    rcases jsMapSet_mem _ _ _ p hp with h | h
    · rw [h]
      simp
    · exact hm'' p h

/-- Every entry of the accumulated `connectionMap` has as `source` the
`domain` field of one of the input groups (the accumulation loop only
iterates over the groups present in the input map). -/
theorem buildConnMap_source (opts : ConnOptions) (now : ℚ) (domainGroups : GroupsMap) :
    ∀ p ∈ buildConnMap opts now domainGroups,
      ∃ q, q ∈ domainGroups ∧ p.2.source = q.2.domain := by
  unfold buildConnMap
  have main : ∀ (l : List (String × DomainGroup)) (m : ConnMap),
      (∀ p ∈ m, ∃ q, q ∈ domainGroups ∧ p.2.source = q.2.domain) →
      (∀ q ∈ l, q ∈ domainGroups) →
      ∀ p ∈ l.foldl (fun m p => addGroupEdges opts now m p.2) m,
        ∃ q, q ∈ domainGroups ∧ p.2.source = q.2.domain := by
    intro l
    induction l with
    | nil => exact fun m hm _ => hm
    | cons grp rest ih =>
      intro m hm hl
      have hgrp : grp ∈ domainGroups := hl grp (by simp)
      simp only [List.foldl_cons]
      refine ih _ ?_ (fun q hq => hl q (List.mem_cons_of_mem _ hq))
      unfold addGroupEdges
      refine foldl_preserve
        (fun (m : ConnMap) => ∀ p ∈ m, ∃ q, q ∈ domainGroups ∧ p.2.source = q.2.domain)
        (fun m n => addNodeEdges opts now grp.2.domain m n) ?_ grp.2.nodes m hm
      intro m node hm'
      unfold addNodeEdges
      refine foldl_preserve
        (fun (m : ConnMap) => ∀ p ∈ m, ∃ q, q ∈ domainGroups ∧ p.2.source = q.2.domain)
        (fun m c => addChildEdge opts now grp.2.domain m node c) ?_ node.node.children m hm'
      intro m child hm''
      simp only [addChildEdge]
      by_cases hskip : ¬opts.includeIntraDomain ∧
          extractDomain (jsOfOpt child.url) defaultDomainOptions = grp.2.domain
      · rw [if_pos hskip]
        exact hm''
      · rw [if_neg hskip]
        intro p hp
        rcases jsMapSet_mem _ _ _ p hp with h | h
        · rw [h]
          cases hgot : jsMapGet m (grp.2.domain ++ "->" ++
              extractDomain (jsOfOpt child.url) defaultDomainOptions) with
          | none =>
            simp only [hgot]
            exact ⟨grp, hgrp, rfl⟩
          | some c =>
            simp only [hgot]
            exact hm'' _ (jsMapGet_mem _ _ _ hgot)
        · exact hm'' p h
  exact main domainGroups [] (by simp) (fun q hq => hq)

/-- Connections surviving the threshold filter all come from the accumulated
map, and carry the clamped strength of their map entry. -/
theorem mem_buildDomainConnections (domainGroups : GroupsMap) (opts : ConnOptions)
    (now : ℚ) (c : Connection) (hc : c ∈ buildDomainConnections domainGroups opts now) :
    ∃ p, p ∈ buildConnMap opts now domainGroups ∧
      c.toPendingConn = p.2 ∧
      c.strength = calculateConnectionStrength p.2 domainGroups
        { weightByFrequency := opts.weightByFrequency
          weightByRecency := opts.weightByRecency } now := by
  unfold buildDomainConnections at hc
  have hc' := mem_sortCmpLE _ _ _ hc
  rcases mem_condPush
      (fun (p : String × PendingConn) =>
        calculateConnectionStrength p.2 domainGroups
          { weightByFrequency := opts.weightByFrequency
            weightByRecency := opts.weightByRecency } now ≥ opts.minConnectionStrength)
      (fun (p : String × PendingConn) =>
        ({ toPendingConn := p.2
           strength := calculateConnectionStrength p.2 domainGroups
             { weightByFrequency := opts.weightByFrequency
               weightByRecency := opts.weightByRecency } now
           bidirectional := checkBidirectional p.2
             (buildConnMap opts now domainGroups) } : Connection))
      (buildConnMap opts now domainGroups) [] c hc' with h | ⟨p, hp, hxp⟩
  · simp at h
  · exact ⟨p, hp, by rw [hxp], by rw [hxp]⟩

/-! ## Claim C2: output strengths lie in [0,1] and frequencies are at least 1 -/

/-- C2: for every input `domainGroups` map, every options record and every
clock value, every Connection in the list returned by
`buildDomainConnections` has strength in the closed interval `[0, 1]` and
frequency at least 1. -/
theorem claim_C2_strength_frequency_bounds (domainGroups : GroupsMap)
    (opts : ConnOptions) (now : ℚ) (c : Connection)
    (hc : c ∈ buildDomainConnections domainGroups opts now) :
    0 ≤ c.strength ∧ c.strength ≤ 1 ∧ 1 ≤ c.frequency := by
  obtain ⟨p, hp, hpc, hs⟩ := mem_buildDomainConnections domainGroups opts now c hc
  have hb := calculateConnectionStrength_bounds p.2 domainGroups
    { weightByFrequency := opts.weightByFrequency
      weightByRecency := opts.weightByRecency } now
  have hf := buildConnMap_freq opts now domainGroups p hp
  refine ⟨hs ▸ hb.1, hs ▸ hb.2, ?_⟩
  have hcf : c.frequency = p.2.frequency := by rw [← hpc]
  rw [hcf]
  exact hf


/-- C2 witness infrastructure: a concrete tree whose `github.com` group (two
nodes) survives `minClusterSize = 2` while its `example.org` child's group
(one node) is filtered out. -/
def wRoot : NavNode :=
  .mk "1-1" (some "https://github.com/a") (some 1000)
    [.mk "1-2" (some "https://github.com/b") (some 2000) [],
     .mk "1-3" (some "https://example.org/q") (some 3000) []]

/-- The surviving groups of `wRoot` under `minClusterSize = 2`. -/
def wGroups : GroupsMap := groupNodesByDomain [wRoot] { minClusterSize := 2 }

/-- The one connection the mapper derives from `wGroups` (at clock 3000):
`github.com → example.org`, frequency 1, strength
`0.6 * (1/2) + 0.4 * 1 = 0.7`. -/
def wConn : Connection :=
  { source := "github.com"
    target := "example.org"
    connections :=
      [{ parentNode :=
           { node := wRoot, domain := "github.com", originalPath := [pathStr "1-1"]
             clusterPosition := (0, 0), globalPosition := (0, 0) }
         childNode := .mk "1-3" (some "https://example.org/q") (some 3000) []
         timestamp := 3000, parentId := "1-1", childId := "1-3" }]
    frequency := 1
    totalStrength := 0
    strength := 7 / 10
    bidirectional := false }

theorem wExtractA : extractDomain (.str "https://github.com/a")
    { removeWww := true, groupSubdomains := false, fallback := "unknown" } = "github.com" := by
  decide

theorem wExtractB : extractDomain (.str "https://github.com/b")
    { removeWww := true, groupSubdomains := false, fallback := "unknown" } = "github.com" := by
  decide

theorem wExtractC : extractDomain (.str "https://example.org/q")
    { removeWww := true, groupSubdomains := false, fallback := "unknown" } = "example.org" := by
  decide

set_option maxHeartbeats 4000000 in
theorem wGroups_eval : wGroups = [("github.com",
    { domain := "github.com"
      nodes :=
        [{ node := wRoot, domain := "github.com", originalPath := [pathStr "1-1"]
           clusterPosition := (0, 0), globalPosition := (0, 0) },
         { node := .mk "1-2" (some "https://github.com/b") (some 2000) []
           domain := "github.com"
           originalPath := [pathStr "1-1", pathStr "children", pathIdx 0]
           clusterPosition := (0, 0), globalPosition := (0, 0) }]
      connections := []
      color := generateDomainColor "github.com"
      stats := { totalNodes := 2, totalVisits := 0
                 firstVisit := some 1000, lastVisit := some 2000 } })] := by
  simp +decide [wGroups, groupNodesByDomain, collectRoots, collectNodes, collectChildren,
    addNodeToGroups, jsMapGet, jsMapSet, freshGroup, updStats, updFirst, updLast,
    invalidUrl, NavNode.children, NavNode.createdAt, NavNode.id, NavNode.url,
    jsOfOpt, wRoot, wExtractA, wExtractB, wExtractC]

set_option maxHeartbeats 4000000 in
theorem wConn_eval :
    buildDomainConnections wGroups defaultConnOptions 3000 = [wConn] := by
  rw [wGroups_eval]
  simp +decide [buildDomainConnections, buildConnMap, addGroupEdges, addNodeEdges,
    addChildEdge, jsMapGet, jsMapSet, jsOfOpt, wRoot, wConn,
    calculateConnectionStrength, checkBidirectional, listMax, jsOr0, jsOrNum,
    sortCmpLE, insertCmpLE, defaultConnOptions, defaultDomainOptions,
    NavNode.children, NavNode.createdAt, NavNode.id, NavNode.url,
    wExtractA, wExtractB, wExtractC]
  norm_num
  rw [sortCmpLE, sortCmpLE, insertCmpLE]

/-- C2 witness: the concrete connection produced from `wGroups` satisfies the
bounds. -/
theorem claim_C2_witness :
    0 ≤ wConn.strength ∧ wConn.strength ≤ 1 ∧ 1 ≤ wConn.frequency :=
  claim_C2_strength_frequency_bounds wGroups defaultConnOptions 3000 wConn
    (by rw [wConn_eval]; simp)


/-! ## Claim C3 (corrected): only sources are guaranteed to survive -/

/-- C3, amended: on any groups map whose entries record their own key as their
domain (as `groupNodesByDomain` guarantees, with or without `minClusterSize`
filtering), every output Connection's SOURCE domain is a key of the surviving
map — the mapper iterates only surviving groups as parents.  The claim's
further assertion about TARGET domains is false (see the counterexample):
child edges pointing into filtered-out domains are kept, dangling. -/
theorem claim_C3_source_survives (domainGroups : GroupsMap) (opts : ConnOptions)
    (now : ℚ) (hdom : ∀ p ∈ domainGroups, p.2.domain = p.1) (c : Connection)
    (hc : c ∈ buildDomainConnections domainGroups opts now) :
    c.source ∈ jsMapKeys domainGroups := by
  obtain ⟨p, hp, hpc, _⟩ := mem_buildDomainConnections domainGroups opts now c hc
  obtain ⟨q, hq, hsrc⟩ := buildConnMap_source opts now domainGroups p hp
  have h1 : c.source = p.2.source := by rw [← hpc]
  rw [h1, hsrc, hdom q hq]
  exact List.mem_map_of_mem (·.1) hq

/-- C3 witness: the surviving `github.com → example.org` connection's source
is a key of the surviving map. -/
theorem claim_C3_witness : wConn.source ∈ jsMapKeys wGroups :=
  claim_C3_source_survives wGroups defaultConnOptions 3000
    (by rw [wGroups_eval]; intro p hp; simp at hp; simp [hp]) wConn
    (by rw [wConn_eval]; simp)

/-- C3 counterexample: with `minClusterSize = 2` the one-node `example.org`
group is filtered out of `wGroups`, yet the mapper still emits the connection
`github.com → example.org`, whose target domain is absent from the surviving
map — refuting "no Connection in its output has a source or target domain
that is absent from the surviving domainGroups map". -/
theorem claim_C3_counterexample :
    ¬ (∀ c ∈ buildDomainConnections wGroups defaultConnOptions 3000,
        c.source ∈ jsMapKeys wGroups ∧ c.target ∈ jsMapKeys wGroups) := by
  intro hall
  have hmem : wConn ∈ buildDomainConnections wGroups defaultConnOptions 3000 := by
    rw [wConn_eval]
    simp
  have h := (hall wConn hmem).2
  rw [wGroups_eval] at h
  simp [jsMapKeys, wConn] at h

/-! ## Claim C6: disabling both weights empties the output -/

theorem foldl_no_push {α β : Type} (cond : α → Prop) [DecidablePred cond] (f : α → β)
    (h : ∀ p, ¬cond p) :
    ∀ (l : List α) (acc : List β),
      l.foldl (fun acc p => if cond p then acc ++ [f p] else acc) acc = acc := by
  intro l
  induction l with
  | nil => exact fun acc => rfl
  | cons p rest ih =>
    intro acc
    simp only [List.foldl_cons, if_neg (h p)]
    exact ih acc

/-- With both weight terms disabled the strength calculation returns 0
regardless of the connection, groups or clock. -/
theorem calculateConnectionStrength_zero (domainGroups : GroupsMap) (now : ℚ)
    (o : ConnOptions) (h1 : o.weightByFrequency = false)
    (h2 : o.weightByRecency = false) (conn : PendingConn) :
    calculateConnectionStrength conn domainGroups o now = 0 := by
  rw [calculateConnectionStrength, h1, h2]
  norm_num

/-- If every accumulated edge scores below the threshold, the output list is
empty. -/
theorem buildDomainConnections_empty (domainGroups : GroupsMap) (opts : ConnOptions)
    (now : ℚ)
    (h : ∀ conn : PendingConn,
      ¬(calculateConnectionStrength conn domainGroups
          { weightByFrequency := opts.weightByFrequency
            weightByRecency := opts.weightByRecency } now ≥ opts.minConnectionStrength)) :
    buildDomainConnections domainGroups opts now = [] := by
  unfold buildDomainConnections
  have he := foldl_no_push
    (fun (p : String × PendingConn) =>
      calculateConnectionStrength p.2 domainGroups
        { weightByFrequency := opts.weightByFrequency
          weightByRecency := opts.weightByRecency } now ≥ opts.minConnectionStrength)
    (fun (p : String × PendingConn) =>
      ({ toPendingConn := p.2
         strength := calculateConnectionStrength p.2 domainGroups
           { weightByFrequency := opts.weightByFrequency
             weightByRecency := opts.weightByRecency } now
         bidirectional := checkBidirectional p.2
           (buildConnMap opts now domainGroups) } : Connection))
    (fun p => h p.2)
    (buildConnMap opts now domainGroups) []
  simp only [he]
  rfl

/-- C6: for every domainGroups input and clock, disabling both
`weightByFrequency` and `weightByRecency` makes every computed edge strength
0, and with the default `minConnectionStrength` threshold of `0.1` the
returned connection list is empty (the `includeIntraDomain` flag does not
matter). -/
theorem claim_C6_disabled_weights_empty (domainGroups : GroupsMap) (now : ℚ)
    (inc : Bool) :
    (∀ conn : PendingConn,
      calculateConnectionStrength conn domainGroups
        { weightByFrequency := false, weightByRecency := false } now = 0) ∧
    buildDomainConnections domainGroups
      { defaultConnOptions with
        includeIntraDomain := inc
        weightByFrequency := false
        weightByRecency := false } now = [] := by
  constructor
  · exact calculateConnectionStrength_zero domainGroups now _ rfl rfl
  · refine buildDomainConnections_empty _ _ _ (fun conn => ?_)
    rw [calculateConnectionStrength_zero domainGroups now _ rfl rfl conn]
    norm_num [defaultConnOptions]

/-! ## Claim C9: frequencyWeight/recencyWeight are never forwarded -/

/-- C9 (implicit hyperproperty): two runs of `buildDomainConnections` on the
same groups whose options differ only in `frequencyWeight` and/or
`recencyWeight` produce identical outputs — the source passes only
`{ weightByFrequency, weightByRecency }` to the strength calculation, which
therefore always falls back to its default weights 0.6 and 0.4.  The
equality is definitional: the two option fields are simply never read. -/
theorem claim_C9_weight_options_ignored (domainGroups : GroupsMap)
    (opts : ConnOptions) (fw rw fw2 rw2 now : ℚ) :
    buildDomainConnections domainGroups
      { opts with frequencyWeight := fw, recencyWeight := rw } now =
    buildDomainConnections domainGroups
      { opts with frequencyWeight := fw2, recencyWeight := rw2 } now := rfl


/-! ## Boundary Engine (`src/viewer/components/cluster-boundaries.js`)

The geometry is developed over a generic linearly ordered commutative ring so
that the convex-hull computation can be evaluated exactly over `ℤ` and used
over `ℝ`; only ring operations and comparisons occur in the hull.  The
floating-point `Math.atan2`/`Math.sqrt` comparisons of the source's sort
comparator are modelled by exact equivalents (see `atan2Band`). -/

/-- A 2D point `{x, y}`. -/
structure Pt (α : Type) where
  x : α
  y : α
deriving DecidableEq

/-- `crossProduct(o, a, b)` from `cluster-boundaries.js` lines 59-61. -/
def crossProduct {α : Type} [LinearOrderedCommRing α] (o a b : Pt α) : α :=
  (a.x - o.x) * (b.y - o.y) - (a.y - o.y) * (b.x - o.x)

/-- Strict improvement test of the start-point loop (lines 15-20):
`points[i].y < points[start].y || (equal y && points[i].x < points[start].x)`. -/
def startBetter {α : Type} [LinearOrderedCommRing α] (p q : Pt α) : Bool :=
  decide (p.y < q.y) || (decide (p.y = q.y) && decide (p.x < q.x))

/-- The running bottom-most/left-most scan over the remaining points. -/
def findStartAux {α : Type} [LinearOrderedCommRing α] :
    List (Pt α) → ℕ → ℕ × Pt α → ℕ × Pt α
  | [], _, best => best
  | p :: rest, i, best =>
    findStartAux rest (i + 1) (if startBetter p best.2 then (i, p) else best)

/-- Find the index and value of the bottom-most point, ties broken by smallest
x (lines 14-20).  The empty case is unreachable (the caller guarantees at
least 3 points). -/
def findStart {α : Type} [LinearOrderedCommRing α] : List (Pt α) → ℕ × Pt α
  | [] => (0, ⟨0, 0⟩)
  | p :: rest => findStartAux rest 1 (0, p)

/-- The band (sub-interval of `(-π, π]`) in which `Math.atan2(dy, dx)` falls,
numbered in increasing order of the angle: `(-π,-π/2)`, `-π/2`, `(-π/2,0)`,
`0` (this band also holds the zero vector, for which `atan2` returns `0`),
`(0,π/2)`, `π/2`, `(π/2,π)`, `π`.  Comparing `atan2` values is equivalent to
comparing bands first and, inside an open band (where `tan` is strictly
increasing), comparing `dy1/dx1` with `dy2/dx2`, i.e. the sign of the cross
product `dx1*dy2 - dy1*dx2` (the products `dx1*dx2` are positive within one
open band); in the four closed bands the angle is constant and the cross
product is 0. -/
def atan2Band {α : Type} [LinearOrderedCommRing α] (dx dy : α) : ℕ :=
  if dy < 0 then (if dx < 0 then 0 else if dx = 0 then 1 else 2)
  else if dy = 0 then (if dx < 0 then 7 else 3)
  else (if dx < 0 then 6 else if dx = 0 then 5 else 4)

/-- Exact-arithmetic model of `Math.atan2(dy1, dx1) < Math.atan2(dy2, dx2)`. -/
def atan2Lt {α : Type} [LinearOrderedCommRing α] (dx1 dy1 dx2 dy2 : α) : Bool :=
  decide (atan2Band dx1 dy1 < atan2Band dx2 dy2) ||
    (decide (atan2Band dx1 dy1 = atan2Band dx2 dy2) &&
      decide (0 < dx1 * dy2 - dy1 * dx2))

/-- Exact-arithmetic model of `Math.atan2(dy1, dx1) === Math.atan2(dy2, dx2)`. -/
def atan2Eql {α : Type} [LinearOrderedCommRing α] (dx1 dy1 dx2 dy2 : α) : Bool :=
  decide (atan2Band dx1 dy1 = atan2Band dx2 dy2) && decide (dx1 * dy2 - dy1 * dx2 = 0)

/-- Squared distance from `s` to `p`; the source compares
`Math.sqrt(dx ** 2 + dy ** 2)` values, and comparing the squares is exact and
equivalent. -/
def dist2 {α : Type} [LinearOrderedCommRing α] (s p : Pt α) : α :=
  (p.x - s.x) * (p.x - s.x) + (p.y - s.y) * (p.y - s.y)

/-- The sort comparator of `calculateConvexHull` (lines 25-35) as the
"comparator ≤ 0" relation used by a stable sort: `a` sorts no later than `b`
iff its polar angle around `startPoint` is smaller, or the angles are equal
and `a` is no farther than `b`. -/
def angleCmpLE {α : Type} [LinearOrderedCommRing α] (s a b : Pt α) : Bool :=
  atan2Lt (a.x - s.x) (a.y - s.y) (b.x - s.x) (b.y - s.y) ||
    (atan2Eql (a.x - s.x) (a.y - s.y) (b.x - s.x) (b.y - s.y) &&
      decide (dist2 s a ≤ dist2 s b))

/-- The pop loop of the Graham scan (lines 42-45), with the stack kept
top-first: pop while the stack has at least two points and the top two make a
non-left turn with the new point. -/
def scanPop {α : Type} [LinearOrderedCommRing α] (p : Pt α) :
    List (Pt α) → List (Pt α)
  | a :: b :: rest =>
    if crossProduct b a p ≤ 0 then scanPop p (b :: rest) else a :: b :: rest
  | l => l

/-- `calculateConvexHull(points)` from `cluster-boundaries.js` lines 10-50:
fewer than 3 points are returned unchanged; otherwise the points other than
the start point are sorted by polar angle (ties by distance, stably, as
`Array.prototype.sort`) and swept with the Graham scan. -/
def calculateConvexHull {α : Type} [LinearOrderedCommRing α]
    (points : List (Pt α)) : List (Pt α) :=
  if points.length < 3 then points
  else
    let sp := findStart points
    let startPoint := sp.2
    let sortedPoints := sortCmpLE (fun a b => angleCmpLE startPoint a b)
      (points.eraseIdx sp.1)
    (sortedPoints.foldl (fun hull point => point :: scanPop point hull)
      [startPoint]).reverse

/-- `createPaddedBoundary(points, padding)` from `cluster-boundaries.js`
lines 69-110 over the reals: empty input gives an empty boundary; a single
point is surrounded by a synthesized 12-point circle of radius `padding`;
otherwise the convex hull is computed, returned as-is when degenerate
(fewer than 3 points), and otherwise expanded away from its centroid by
`padding` (with the x-axis nudge fallback for a vertex at the centroid). -/
noncomputable def createPaddedBoundary (points : List (Pt ℝ)) (padding : ℝ) :
    List (Pt ℝ) :=
  match points with
  | [] => []
  | [center] =>
    (List.range 12).map fun (i : ℕ) =>
      let angle := ((i : ℝ) / 12) * (2 * Real.pi)
      ⟨center.x + Real.cos angle * padding, center.y + Real.sin angle * padding⟩
  | _ =>
    let hull := calculateConvexHull points
    if hull.length < 3 then hull
    else
      let centroid : Pt ℝ :=
        ⟨(hull.map (·.x)).sum / hull.length, (hull.map (·.y)).sum / hull.length⟩
      hull.map fun point =>
        let dx := point.x - centroid.x
        let dy := point.y - centroid.y
        let distance := Real.sqrt (dx * dx + dy * dy)
        if distance = 0 then ⟨point.x + padding, point.y⟩
        else
          let factor := (distance + padding) / distance
          ⟨centroid.x + dx * factor, centroid.y + dy * factor⟩


/-! ## Claim C4 (corrected): boundary sizes before smoothing -/

/-- C4 counterexample: a two-node domain.  The hull of two points is the two
points themselves (`points.length < 3` short-circuit), `createPaddedBoundary`
returns them unchanged (`hull.length < 3` short-circuit), so the boundary has
2 points — neither at least 3 points nor the single-node 12-point circle. -/
theorem claim_C4_counterexample :
    (createPaddedBoundary [⟨0, 0⟩, ⟨1, 0⟩] 25).length = 2 ∧
    ¬(3 ≤ (createPaddedBoundary [⟨0, 0⟩, ⟨1, 0⟩] 25).length ∨
      ([(⟨0, 0⟩ : Pt ℝ), ⟨1, 0⟩]).length = 1) := by
  have h : createPaddedBoundary [⟨0, 0⟩, ⟨1, 0⟩] 25 = [⟨0, 0⟩, ⟨1, 0⟩] := by
    rw [createPaddedBoundary]
    · rw [show calculateConvexHull [(⟨0, 0⟩ : Pt ℝ), ⟨1, 0⟩] = [⟨0, 0⟩, ⟨1, 0⟩] from by
        rw [calculateConvexHull]
        simp]
      simp
    · simp
    · simp
  rw [h]
  simp

/-- C4, amended: for every non-empty list of positioned nodes the boundary
produced before smoothing either has at least 3 points, or is the synthesized
regular 12-point polygon at distance `|padding|` around the single node, or —
the case the original claim misses — is the degenerate hull (fewer than 3
points, e.g. a 2-node domain or collinear positions) returned unchanged and
unpadded. -/
theorem claim_C4_boundary_shape (points : List (Pt ℝ)) (padding : ℝ)
    (hne : points ≠ []) :
    3 ≤ (createPaddedBoundary points padding).length ∨
    (∃ c, points = [c] ∧ (createPaddedBoundary points padding).length = 12 ∧
      ∀ q ∈ createPaddedBoundary points padding,
        Real.sqrt ((q.x - c.x) ^ 2 + (q.y - c.y) ^ 2) = |padding|) ∨
    (createPaddedBoundary points padding = calculateConvexHull points ∧
      (calculateConvexHull points).length < 3) := by
  match points with
  | [] => exact absurd rfl hne
  | [c] =>
    refine Or.inr (Or.inl ⟨c, rfl, ?_, ?_⟩)
    · simp only [createPaddedBoundary]
      simp
    · intro q hq
      rw [createPaddedBoundary] at hq
      simp only [List.mem_map, List.mem_range] at hq
      obtain ⟨i, _, hqi⟩ := hq
      rw [← hqi]
      have h2 : (c.x + Real.cos ((i : ℝ) / 12 * (2 * Real.pi)) * padding - c.x) ^ 2 +
          (c.y + Real.sin ((i : ℝ) / 12 * (2 * Real.pi)) * padding - c.y) ^ 2 =
          padding ^ 2 := by
        linear_combination padding ^ 2 *
          Real.sin_sq_add_cos_sq ((i : ℝ) / 12 * (2 * Real.pi))
      rw [h2, Real.sqrt_sq_eq_abs]
  | c1 :: c2 :: rest =>
    rw [createPaddedBoundary]
    case x_1 => simp
    case x_2 => simp
    by_cases hl : (calculateConvexHull (c1 :: c2 :: rest)).length < 3
    · rw [if_pos hl]
      exact Or.inr (Or.inr ⟨rfl, hl⟩)
    · rw [if_neg hl]
      refine Or.inl ?_
      rw [List.length_map]
      omega

/-- C4 witness: the single positioned node `(10, 10)` with padding 5 falls in
the 12-point-circle branch of the amended statement. -/
theorem claim_C4_witness :
    3 ≤ (createPaddedBoundary [⟨10, 10⟩] 5).length ∨
    (∃ c, [(⟨10, 10⟩ : Pt ℝ)] = [c] ∧
      (createPaddedBoundary [⟨10, 10⟩] 5).length = 12 ∧
      ∀ q ∈ createPaddedBoundary [⟨10, 10⟩] 5,
        Real.sqrt ((q.x - c.x) ^ 2 + (q.y - c.y) ^ 2) = |(5 : ℝ)|) ∨
    (createPaddedBoundary [⟨10, 10⟩] 5 = calculateConvexHull [⟨10, 10⟩] ∧
      (calculateConvexHull [(⟨10, 10⟩ : Pt ℝ)]).length < 3) :=
  claim_C4_boundary_shape [⟨10, 10⟩] 5 (by simp)


/-! ## Cluster Force (`src/viewer/components/cluster-visualizer.js`, clusterForce) -/

/-- A simulation node as the force reads and writes it: the derived domain,
the mutable position and velocity, and the pin fields `fx`/`fy` the drag
handlers set (`null` when not pinned).  The force itself never reads the pin
fields. -/
structure SimNode where
  domain : String
  x : ℝ
  y : ℝ
  vx : ℝ
  vy : ℝ
  fx : Option ℝ
  fy : Option ℝ

/-- `d3.mean` on a list of defined numbers: the arithmetic mean. -/
noncomputable def mean (l : List ℝ) : ℝ := l.sum / l.length

/-- The per-tick cluster-center computation (`clusterForce` lines 202-215):
for every domain key of `domainGroups`, the centroid of the current members
among `nodes` (skipped when no node carries the domain). -/
noncomputable def clusterCenters (domainGroups : GroupsMap) (nodes : List SimNode) :
    List (String × Pt ℝ) :=
  domainGroups.foldl
    (fun acc p =>
      let domainNodes := nodes.filter fun n => n.domain = p.1
      if domainNodes.length = 0 then acc
      else jsMapSet acc p.1 ⟨mean (domainNodes.map (·.x)), mean (domainNodes.map (·.y))⟩)
    []

/-- The force applied on one tick (`clusterForce` lines 196-233) with
`strength = this.options.clusterStrength` and the stepper's cooling factor
`alpha`: every node whose domain has a computed center gets
`(center - position) * strength * alpha` added to its velocity, guarded by
`distance > 0`; the in-place `vx`/`vy` mutation is modelled by returning the
updated node list. -/
noncomputable def clusterForce (domainGroups : GroupsMap) (nodes : List SimNode)
    (strength alpha : ℝ) : List SimNode :=
  let clusterCentersMap := clusterCenters domainGroups nodes
  nodes.map fun node =>
    match jsMapGet clusterCentersMap node.domain with
    | none => node
    | some center =>
      let dx := center.x - node.x
      let dy := center.y - node.y
      let distance := Real.sqrt (dx * dx + dy * dy)
      if distance > 0 then
        { node with vx := node.vx + dx * (strength * alpha)
                    vy := node.vy + dy * (strength * alpha) }
      else node

theorem jsMapGet_jsMapSet {β : Type} (m : List (String × β)) (k k2 : String) (v : β) :
    jsMapGet (jsMapSet m k v) k2 = if k2 = k then some v else jsMapGet m k2 := by
  induction m with
  | nil =>
    by_cases h : k2 = k
    · subst h
      simp [jsMapSet, jsMapGet]
    · have h2 : ¬(k = k2) := fun hh => h hh.symm
      simp [jsMapSet, jsMapGet, h, h2]
  | cons hd tl ih =>
    rw [jsMapSet_cons]
    by_cases hk : hd.1 = k
    · rw [if_pos hk, jsMapGet_cons, jsMapGet_cons]
      by_cases h2 : k2 = k
      · simp [h2]
      · have h3 : ¬(k = k2) := fun hh => h2 hh.symm
        have h4 : ¬(hd.1 = k2) := fun hh => h2 (hh.symm.trans hk)
        simp [h2, h3, h4]
    · rw [if_neg hk, jsMapGet_cons, jsMapGet_cons, ih]
      by_cases h2 : hd.1 = k2
      · have h3 : ¬(k2 = k) := fun hh => hk (h2.trans hh)
        simp [h2, h3]
      · simp [h2]

/-- The centroid of the current members of domain `d` (componentwise
`d3.mean`). -/
noncomputable def centerFor (nodes : List SimNode) (d : String) : Pt ℝ :=
  ⟨mean (((nodes.filter fun (n : SimNode) => n.domain = d)).map (·.x)),
   mean (((nodes.filter fun (n : SimNode) => n.domain = d)).map (·.y))⟩

/-- Equality of simulation nodes is classical (their coordinates are real). -/
noncomputable instance : DecidableEq SimNode := Classical.decEq _

/-- What the center lookup of the cluster force yields for domain `d` when
the processed group keys are `S`: the member centroid when `d` is a processed
key with at least one current member node, nothing otherwise. -/
noncomputable def centerIf (nodes : List SimNode) (S : List String) (d : String) :
    Option (Pt ℝ) :=
  if d ∈ S ∧ (nodes.filter fun (n : SimNode) => n.domain = d) ≠ [] then
    some (centerFor nodes d)
  else none

theorem centerIf_extend_nil (nodes : List SimNode) (S : List String) (d : String)
    (h : (nodes.filter fun (n : SimNode) => n.domain = d) = []) (d2 : String) :
    centerIf nodes (S ++ [d]) d2 = centerIf nodes S d2 := by
  unfold centerIf
  by_cases h2 : d2 = d
  · subst h2
    simp [h]
  · simp [h2]

theorem centerIf_extend_set (nodes : List SimNode) (S : List String) (d : String)
    (h : (nodes.filter fun (n : SimNode) => n.domain = d) ≠ []) (d2 : String) :
    (if d2 = d then some (centerFor nodes d) else centerIf nodes S d2) =
      centerIf nodes (S ++ [d]) d2 := by
  unfold centerIf
  by_cases h2 : d2 = d
  · subst h2
    simp [h]
  · simp [h2]

/-- The lookup of the computed center map, in closed form: a domain has a
center iff it is a key of `domainGroups` and at least one current node
carries it, and then the center is the componentwise mean of the member
positions. -/
theorem clusterCenters_get (domainGroups : GroupsMap) (nodes : List SimNode)
    (d : String) :
    jsMapGet (clusterCenters domainGroups nodes) d =
      centerIf nodes (jsMapKeys domainGroups) d := by
  have main : ∀ (l : List (String × DomainGroup)) (acc : List (String × Pt ℝ))
      (S : List String),
      (∀ d2, jsMapGet acc d2 = centerIf nodes S d2) →
      ∀ d2, jsMapGet (l.foldl
          (fun acc p =>
            let domainNodes := nodes.filter fun n => n.domain = p.1
            if domainNodes.length = 0 then acc
            else jsMapSet acc p.1
              ⟨mean (domainNodes.map (·.x)), mean (domainNodes.map (·.y))⟩) acc) d2 =
        centerIf nodes (S ++ jsMapKeys l) d2 := by
    intro l
    induction l with
    | nil =>
      intro acc S hacc d2
      simpa [jsMapKeys] using hacc d2
    | cons p rest ih =>
      intro acc S hacc d2
      simp only [List.foldl_cons]
      have hkeys : S ++ jsMapKeys (p :: rest) = (S ++ [p.1]) ++ jsMapKeys rest := by
        simp [jsMapKeys]
      rw [hkeys]
      by_cases hlen : (nodes.filter fun (n : SimNode) => n.domain = p.1).length = 0
      · rw [if_pos hlen]
        have hnil : (nodes.filter fun (n : SimNode) => n.domain = p.1) = [] :=
          List.length_eq_zero.mp hlen
        have hacc2 : ∀ d3, jsMapGet acc d3 = centerIf nodes (S ++ [p.1]) d3 :=
          fun d3 => (hacc d3).trans (centerIf_extend_nil nodes S p.1 hnil d3).symm
        exact ih acc (S ++ [p.1]) hacc2 d2
      · rw [if_neg hlen]
        have hne : (nodes.filter fun (n : SimNode) => n.domain = p.1) ≠ [] := by
          intro hh
          rw [hh] at hlen
          simp at hlen
        have hacc2 : ∀ d3, jsMapGet (jsMapSet acc p.1 (centerFor nodes p.1)) d3 =
            centerIf nodes (S ++ [p.1]) d3 := by
          intro d3
          rw [jsMapGet_jsMapSet, hacc d3]
          exact centerIf_extend_set nodes S p.1 hne d3
        exact ih _ (S ++ [p.1]) hacc2 d2
  have h := main domainGroups [] [] (fun d2 => by simp [jsMapGet, centerIf]) d
  simpa [clusterCenters, centerFor] using h

/-! ## Claim C8: one tick of the cluster force -/

/-- C8: on every tick at cooling factor `alpha`, the force first computes,
for every domain of `domainGroups` with at least one member among the current
nodes, the centroid (mean x, mean y) of the current member positions, and
then every node whose domain has such a centroid — pinned (`fx`/`fy` set)
nodes exactly like the rest, both inside the centroid and as recipients —
gets `(centroid - position) * clusterStrength * alpha` added to its velocity
(`vx`, `vy`); positions and pins are untouched, and nodes whose domain has no
centroid are unchanged.  The `distance > 0` guard of the source drops only a
zero increment, so the velocity equation holds unconditionally. -/
theorem claim_C8_cluster_force_tick (domainGroups : GroupsMap)
    (nodes : List SimNode) (strength alpha : ℝ) :
    clusterForce domainGroups nodes strength alpha = nodes.map fun node =>
      if node.domain ∈ jsMapKeys domainGroups ∧
          (nodes.filter fun (n : SimNode) => n.domain = node.domain) ≠ [] then
        { node with
          vx := node.vx + ((centerFor nodes node.domain).x - node.x) * (strength * alpha)
          vy := node.vy + ((centerFor nodes node.domain).y - node.y) * (strength * alpha) }
      else node := by
  simp only [clusterForce]
  congr 1
  funext node
  rw [clusterCenters_get]
  unfold centerIf
  by_cases hcond : node.domain ∈ jsMapKeys domainGroups ∧
      (nodes.filter fun (n : SimNode) => n.domain = node.domain) ≠ []
  · rw [if_pos hcond, if_pos hcond]
    by_cases hz : ((centerFor nodes node.domain).x - node.x) = 0 ∧
        ((centerFor nodes node.domain).y - node.y) = 0
    · have hdist : Real.sqrt
          (((centerFor nodes node.domain).x - node.x) *
              ((centerFor nodes node.domain).x - node.x) +
            ((centerFor nodes node.domain).y - node.y) *
              ((centerFor nodes node.domain).y - node.y)) = 0 := by
        rw [hz.1, hz.2]
        simp
      show (if Real.sqrt _ > 0 then _ else _) = _
      rw [hdist, if_neg (lt_irrefl 0)]
      rw [hz.1, hz.2]
      cases node
      simp
    · have hpos : 0 < ((centerFor nodes node.domain).x - node.x) *
            ((centerFor nodes node.domain).x - node.x) +
          ((centerFor nodes node.domain).y - node.y) *
            ((centerFor nodes node.domain).y - node.y) := by
        rcases not_and_or.mp hz with h | h
        · exact add_pos_of_pos_of_nonneg (mul_self_pos.mpr h) (mul_self_nonneg _)
        · exact add_pos_of_nonneg_of_pos (mul_self_nonneg _) (mul_self_pos.mpr h)
      show (if Real.sqrt _ > 0 then _ else _) = _
      rw [if_pos (Real.sqrt_pos.mpr hpos)]
  · rw [if_neg hcond, if_neg hcond]


/-! ## Claim C7: the Graham scan convex hull -/

/-- The stack-side (top-first) strict-left-turn chain: every three
consecutive stack entries `a, b, c` (top first) make a strict left turn when
read bottom-first, `cross(c, b, a) > 0`. -/
def revChainB {α : Type} [LinearOrderedCommRing α] : List (Pt α) → Bool
  | a :: b :: c :: rest =>
    decide (0 < crossProduct c b a) && revChainB (b :: c :: rest)
  | _ => true

theorem scanPop_subset {α : Type} [LinearOrderedCommRing α] (p : Pt α) :
    ∀ l : List (Pt α), scanPop p l ⊆ l := by
  intro l
  induction l with
  | nil => simp [scanPop]
  | cons a tl ih =>
    match tl with
    | [] => exact fun x hx => hx
    | b :: rest =>
      rw [scanPop]
      by_cases hc : crossProduct b a p ≤ 0
      · rw [if_pos hc]
        exact fun x hx => List.mem_cons_of_mem a (ih hx)
      · rw [if_neg hc]
        exact fun x hx => hx

/-- After the pop loop, either fewer than two points remain or the top two
make a strict left turn with the incoming point. -/
theorem scanPop_exit {α : Type} [LinearOrderedCommRing α] (p : Pt α) :
    ∀ l : List (Pt α),
      scanPop p l = [] ∨ (∃ a, scanPop p l = [a]) ∨
      (∃ a b rest, scanPop p l = a :: b :: rest ∧ 0 < crossProduct b a p) := by
  intro l
  induction l with
  | nil => exact Or.inl rfl
  | cons a tl ih =>
    match tl with
    | [] => exact Or.inr (Or.inl ⟨a, rfl⟩)
    | b :: rest =>
      rw [scanPop]
      by_cases hc : crossProduct b a p ≤ 0
      · rw [if_pos hc]
        exact ih
      · rw [if_neg hc]
        exact Or.inr (Or.inr ⟨a, b, rest, rfl, lt_of_not_le hc⟩)

theorem revChainB_tail {α : Type} [LinearOrderedCommRing α] (a : Pt α)
    (l : List (Pt α)) (h : revChainB (a :: l) = true) : revChainB l = true := by
  match l with
  | [] => rfl
  | [b] => rfl
  | b :: c :: rest =>
    rw [revChainB, Bool.and_eq_true] at h
    exact h.2

theorem revChainB_scanPop {α : Type} [LinearOrderedCommRing α] (p : Pt α) :
    ∀ l : List (Pt α), revChainB l = true → revChainB (scanPop p l) = true := by
  intro l
  induction l with
  | nil => exact fun h => h
  | cons a tl ih =>
    intro h
    match tl with
    | [] => exact h
    | b :: rest =>
      rw [scanPop]
      by_cases hc : crossProduct b a p ≤ 0
      · rw [if_pos hc]
        exact ih (revChainB_tail a _ h)
      · rw [if_neg hc]
        exact h

/-- Pushing the incoming point after the pop loop preserves the strict-turn
chain. -/
theorem revChainB_push {α : Type} [LinearOrderedCommRing α] (p : Pt α)
    (l : List (Pt α)) (h : revChainB l = true) :
    revChainB (p :: scanPop p l) = true := by
  rcases scanPop_exit p l with h0 | ⟨a, h1⟩ | ⟨a, b, rest, h2, hcr⟩
  · rw [h0]
    rfl
  · rw [h1]
    rfl
  · rw [h2, revChainB, Bool.and_eq_true]
    exact ⟨decide_eq_true hcr, h2 ▸ revChainB_scanPop p l h⟩

theorem revChainB_scanFold {α : Type} [LinearOrderedCommRing α] :
    ∀ (l : List (Pt α)) (st : List (Pt α)), revChainB st = true →
      revChainB (l.foldl (fun hull point => point :: scanPop point hull) st) = true := by
  intro l
  induction l with
  | nil => exact fun st h => h
  | cons p rest ih =>
    intro st h
    simp only [List.foldl_cons]
    exact ih _ (revChainB_push p st h)

theorem scanFold_subset {α : Type} [LinearOrderedCommRing α] (U : List (Pt α)) :
    ∀ (l : List (Pt α)) (st : List (Pt α)), st ⊆ U → l ⊆ U →
      (l.foldl (fun hull point => point :: scanPop point hull) st) ⊆ U := by
  intro l
  induction l with
  | nil => exact fun st hst _ => hst
  | cons p rest ih =>
    intro st hst hl
    simp only [List.foldl_cons]
    refine ih _ ?_ (fun x hx => hl (List.mem_cons_of_mem _ hx))
    intro x hx
    rcases List.mem_cons.mp hx with h | h
    · exact h ▸ hl (List.mem_cons_self _ _)
    · exact hst (scanPop_subset p st h)

theorem findStartAux_mem {α : Type} [LinearOrderedCommRing α] :
    ∀ (l : List (Pt α)) (i : ℕ) (best : ℕ × Pt α),
      (findStartAux l i best).2 = best.2 ∨ (findStartAux l i best).2 ∈ l := by
  intro l
  induction l with
  | nil => exact fun i best => Or.inl rfl
  | cons p rest ih =>
    intro i best
    rw [findStartAux]
    by_cases hb : startBetter p best.2 = true
    · rw [if_pos hb]
      rcases ih (i + 1) (i, p) with h | h
      · exact Or.inr (by simp [h])
      · exact Or.inr (List.mem_cons_of_mem _ h)
    · rw [if_neg hb]
      rcases ih (i + 1) best with h | h
      · exact Or.inl h
      · exact Or.inr (List.mem_cons_of_mem _ h)

theorem findStart_mem {α : Type} [LinearOrderedCommRing α] (points : List (Pt α))
    (h : points ≠ []) : (findStart points).2 ∈ points := by
  match points with
  | [] => exact absurd rfl h
  | p :: rest =>
    rw [findStart]
    rcases findStartAux_mem rest 1 (0, p) with h' | h'
    · rw [h']
      exact List.mem_cons_self _ _
    · exact List.mem_cons_of_mem _ h'

theorem eraseIdx_subset' {α : Type} (l : List α) (i : ℕ) : l.eraseIdx i ⊆ l := by
  induction l generalizing i with
  | nil => simp [List.eraseIdx]
  | cons a tl ih =>
    match i with
    | 0 => exact fun x hx => List.mem_cons_of_mem _ hx
    | n + 1 =>
      intro x hx
      rcases List.mem_cons.mp hx with h | h
      · exact h ▸ List.mem_cons_self _ _
      · exact List.mem_cons_of_mem _ (ih n h)

/-- Hull vertices are input points. -/
theorem calculateConvexHull_subset {α : Type} [LinearOrderedCommRing α]
    (points : List (Pt α)) : calculateConvexHull points ⊆ points := by
  rw [calculateConvexHull]
  by_cases hlen : points.length < 3
  · rw [if_pos hlen]
    exact fun x hx => hx
  · rw [if_neg hlen]
    intro x hx
    rw [List.mem_reverse] at hx
    have hne : points ≠ [] := by
      intro hh
      rw [hh] at hlen
      simp at hlen
    refine scanFold_subset points _ _ ?_ ?_ hx
    · intro y hy
      rw [List.mem_singleton.mp hy]
      exact findStart_mem points hne
    · intro y hy
      exact eraseIdx_subset' points _ (mem_sortCmpLE _ _ _ hy)

/-- The scan's output chain makes only strict left turns: the stack maintains
the invariant and the output is its reversal. -/
theorem calculateConvexHull_leftTurns {α : Type} [LinearOrderedCommRing α]
    (points : List (Pt α)) (h3 : ¬points.length < 3) :
    revChainB (calculateConvexHull points).reverse = true := by
  rw [calculateConvexHull, if_neg h3, List.reverse_reverse]
  exact revChainB_scanFold _ _ rfl


/-- Indexed reading of the stack chain: every three consecutive entries (in
stack order `i` = distance from the top) make a strict left turn when read
bottom-first. -/
theorem revChainB_index {α : Type} [LinearOrderedCommRing α] :
    ∀ l : List (Pt α), revChainB l = true ↔
      ∀ (i : ℕ) (h : i + 2 < l.length),
        0 < crossProduct (l.get ⟨i + 2, h⟩) (l.get ⟨i + 1, by omega⟩)
          (l.get ⟨i, by omega⟩) := by
  intro l
  match l with
  | [] => simp [revChainB]
  | [a] => simp [revChainB]
  | [a, b] =>
    constructor
    · intro _ i h
      simp at h
    · intro _
      rfl
  | a :: b :: c :: rest =>
    rw [revChainB, Bool.and_eq_true]
    rw [revChainB_index (b :: c :: rest)]
    constructor
    · rintro ⟨h1, h2⟩ i hi
      match i with
      | 0 => exact of_decide_eq_true h1
      | j + 1 =>
        have hj : j + 2 < (b :: c :: rest).length := by
          simp at hi ⊢
          omega
        have := h2 j hj
        simpa using this
    · intro h
      refine ⟨decide_eq_true ?_, fun j hj => ?_⟩
      · have h0 := h 0 (by simp)
        simpa using h0
      · have hj2 : (j + 1) + 2 < (a :: b :: c :: rest).length := by
          simp at hj ⊢
          omega
        have := h (j + 1) hj2
        simpa using this

/-! ## Exact correctness of the Graham scan

The comparator-sorted sweep is shown to output a polygon spanning exactly
the convex hull of the input points.  The `atan2` comparator is analysed
through its band decomposition; the start point is bottom-most (ties:
left-most), so all relative vectors live in the closed upper half-plane and
the angular order gives one-sided cross products, which drive a convexity
invariant through the pop loop. -/



section Bands

variable {α : Type} [LinearOrderedCommRing α]

theorem band_eq_0 (dx dy : α) : atan2Band dx dy = 0 ↔ dx < 0 ∧ dy < 0 := by
  unfold atan2Band
  split_ifs <;> constructor <;> intro h <;>
    first
      | rfl
      | trivial
      | exact h.elim
      | (exact ⟨by assumption, by assumption⟩)
      | (exact ⟨le_of_not_lt (by assumption), by assumption⟩)
      | (exact ⟨by assumption, lt_of_le_of_ne (le_of_not_lt (by assumption)) (Ne.symm (by assumption))⟩)
      | (exact ⟨lt_of_le_of_ne (le_of_not_lt (by assumption)) (Ne.symm (by assumption)), by assumption⟩)
      | (exact ⟨lt_of_le_of_ne (le_of_not_lt (by assumption)) (Ne.symm (by assumption)),
          lt_of_le_of_ne (le_of_not_lt (by assumption)) (Ne.symm (by assumption))⟩)
      | (exfalso; rcases h with ⟨ha, hb⟩; exact absurd ha (by assumption))
      | (exfalso; rcases h with ⟨ha, hb⟩; exact absurd hb (by assumption))
      | (exfalso; rcases h with ⟨ha, hb⟩; linarith)

theorem band_eq_1 (dx dy : α) : atan2Band dx dy = 1 ↔ dx = 0 ∧ dy < 0 := by
  unfold atan2Band
  split_ifs <;> constructor <;> intro h <;>
    first
      | rfl
      | trivial
      | exact h.elim
      | (exact ⟨by assumption, by assumption⟩)
      | (exact ⟨le_of_not_lt (by assumption), by assumption⟩)
      | (exact ⟨by assumption, lt_of_le_of_ne (le_of_not_lt (by assumption)) (Ne.symm (by assumption))⟩)
      | (exact ⟨lt_of_le_of_ne (le_of_not_lt (by assumption)) (Ne.symm (by assumption)), by assumption⟩)
      | (exact ⟨lt_of_le_of_ne (le_of_not_lt (by assumption)) (Ne.symm (by assumption)),
          lt_of_le_of_ne (le_of_not_lt (by assumption)) (Ne.symm (by assumption))⟩)
      | (exfalso; rcases h with ⟨ha, hb⟩; exact absurd ha (by assumption))
      | (exfalso; rcases h with ⟨ha, hb⟩; exact absurd hb (by assumption))
      | (exfalso; rcases h with ⟨ha, hb⟩; linarith)

theorem band_eq_2 (dx dy : α) : atan2Band dx dy = 2 ↔ 0 < dx ∧ dy < 0 := by
  unfold atan2Band
  split_ifs <;> constructor <;> intro h <;>
    first
      | rfl
      | trivial
      | exact h.elim
      | (exact ⟨by assumption, by assumption⟩)
      | (exact ⟨le_of_not_lt (by assumption), by assumption⟩)
      | (exact ⟨by assumption, lt_of_le_of_ne (le_of_not_lt (by assumption)) (Ne.symm (by assumption))⟩)
      | (exact ⟨lt_of_le_of_ne (le_of_not_lt (by assumption)) (Ne.symm (by assumption)), by assumption⟩)
      | (exact ⟨lt_of_le_of_ne (le_of_not_lt (by assumption)) (Ne.symm (by assumption)),
          lt_of_le_of_ne (le_of_not_lt (by assumption)) (Ne.symm (by assumption))⟩)
      | (exfalso; rcases h with ⟨ha, hb⟩; exact absurd ha (by assumption))
      | (exfalso; rcases h with ⟨ha, hb⟩; exact absurd hb (by assumption))
      | (exfalso; rcases h with ⟨ha, hb⟩; linarith)

theorem band_eq_3 (dx dy : α) : atan2Band dx dy = 3 ↔ 0 ≤ dx ∧ dy = 0 := by
  unfold atan2Band
  split_ifs <;> constructor <;> intro h <;>
    first
      | rfl
      | trivial
      | exact h.elim
      | (exact ⟨by assumption, by assumption⟩)
      | (exact ⟨le_of_not_lt (by assumption), by assumption⟩)
      | (exact ⟨by assumption, lt_of_le_of_ne (le_of_not_lt (by assumption)) (Ne.symm (by assumption))⟩)
      | (exact ⟨lt_of_le_of_ne (le_of_not_lt (by assumption)) (Ne.symm (by assumption)), by assumption⟩)
      | (exact ⟨lt_of_le_of_ne (le_of_not_lt (by assumption)) (Ne.symm (by assumption)),
          lt_of_le_of_ne (le_of_not_lt (by assumption)) (Ne.symm (by assumption))⟩)
      | (exfalso; rcases h with ⟨ha, hb⟩; exact absurd ha (by assumption))
      | (exfalso; rcases h with ⟨ha, hb⟩; exact absurd hb (by assumption))
      | (exfalso; rcases h with ⟨ha, hb⟩; linarith)

theorem band_eq_4 (dx dy : α) : atan2Band dx dy = 4 ↔ 0 < dx ∧ 0 < dy := by
  unfold atan2Band
  split_ifs <;> constructor <;> intro h <;>
    first
      | rfl
      | trivial
      | exact h.elim
      | (exact ⟨by assumption, by assumption⟩)
      | (exact ⟨le_of_not_lt (by assumption), by assumption⟩)
      | (exact ⟨by assumption, lt_of_le_of_ne (le_of_not_lt (by assumption)) (Ne.symm (by assumption))⟩)
      | (exact ⟨lt_of_le_of_ne (le_of_not_lt (by assumption)) (Ne.symm (by assumption)), by assumption⟩)
      | (exact ⟨lt_of_le_of_ne (le_of_not_lt (by assumption)) (Ne.symm (by assumption)),
          lt_of_le_of_ne (le_of_not_lt (by assumption)) (Ne.symm (by assumption))⟩)
      | (exfalso; rcases h with ⟨ha, hb⟩; exact absurd ha (by assumption))
      | (exfalso; rcases h with ⟨ha, hb⟩; exact absurd hb (by assumption))
      | (exfalso; rcases h with ⟨ha, hb⟩; linarith)

theorem band_eq_5 (dx dy : α) : atan2Band dx dy = 5 ↔ dx = 0 ∧ 0 < dy := by
  unfold atan2Band
  split_ifs <;> constructor <;> intro h <;>
    first
      | rfl
      | trivial
      | exact h.elim
      | (exact ⟨by assumption, by assumption⟩)
      | (exact ⟨le_of_not_lt (by assumption), by assumption⟩)
      | (exact ⟨by assumption, lt_of_le_of_ne (le_of_not_lt (by assumption)) (Ne.symm (by assumption))⟩)
      | (exact ⟨lt_of_le_of_ne (le_of_not_lt (by assumption)) (Ne.symm (by assumption)), by assumption⟩)
      | (exact ⟨lt_of_le_of_ne (le_of_not_lt (by assumption)) (Ne.symm (by assumption)),
          lt_of_le_of_ne (le_of_not_lt (by assumption)) (Ne.symm (by assumption))⟩)
      | (exfalso; rcases h with ⟨ha, hb⟩; exact absurd ha (by assumption))
      | (exfalso; rcases h with ⟨ha, hb⟩; exact absurd hb (by assumption))
      | (exfalso; rcases h with ⟨ha, hb⟩; linarith)

theorem band_eq_6 (dx dy : α) : atan2Band dx dy = 6 ↔ dx < 0 ∧ 0 < dy := by
  unfold atan2Band
  split_ifs <;> constructor <;> intro h <;>
    first
      | rfl
      | trivial
      | exact h.elim
      | (exact ⟨by assumption, by assumption⟩)
      | (exact ⟨le_of_not_lt (by assumption), by assumption⟩)
      | (exact ⟨by assumption, lt_of_le_of_ne (le_of_not_lt (by assumption)) (Ne.symm (by assumption))⟩)
      | (exact ⟨lt_of_le_of_ne (le_of_not_lt (by assumption)) (Ne.symm (by assumption)), by assumption⟩)
      | (exact ⟨lt_of_le_of_ne (le_of_not_lt (by assumption)) (Ne.symm (by assumption)),
          lt_of_le_of_ne (le_of_not_lt (by assumption)) (Ne.symm (by assumption))⟩)
      | (exfalso; rcases h with ⟨ha, hb⟩; exact absurd ha (by assumption))
      | (exfalso; rcases h with ⟨ha, hb⟩; exact absurd hb (by assumption))
      | (exfalso; rcases h with ⟨ha, hb⟩; linarith)

theorem band_eq_7 (dx dy : α) : atan2Band dx dy = 7 ↔ dx < 0 ∧ dy = 0 := by
  unfold atan2Band
  split_ifs <;> constructor <;> intro h <;>
    first
      | rfl
      | trivial
      | exact h.elim
      | (exact ⟨by assumption, by assumption⟩)
      | (exact ⟨le_of_not_lt (by assumption), by assumption⟩)
      | (exact ⟨by assumption, lt_of_le_of_ne (le_of_not_lt (by assumption)) (Ne.symm (by assumption))⟩)
      | (exact ⟨lt_of_le_of_ne (le_of_not_lt (by assumption)) (Ne.symm (by assumption)), by assumption⟩)
      | (exact ⟨lt_of_le_of_ne (le_of_not_lt (by assumption)) (Ne.symm (by assumption)),
          lt_of_le_of_ne (le_of_not_lt (by assumption)) (Ne.symm (by assumption))⟩)
      | (exfalso; rcases h with ⟨ha, hb⟩; exact absurd ha (by assumption))
      | (exfalso; rcases h with ⟨ha, hb⟩; exact absurd hb (by assumption))
      | (exfalso; rcases h with ⟨ha, hb⟩; linarith)

theorem band_le_7 (dx dy : α) : atan2Band dx dy ≤ 7 := by
  unfold atan2Band; split_ifs <;> omega

end Bands


section Order

variable {α : Type} [LinearOrderedCommRing α]

/-- Key algebraic identity tying the three pairwise cross products of
coplanar vectors; used for transitivity of the angular order inside an open
band, where all x-components share one strict sign. -/
theorem cross_shear_x (u1 u2 v1 v2 w1 w2 : α) :
    v1 * (u1 * w2 - u2 * w1) =
      w1 * (u1 * v2 - u2 * v1) + u1 * (v1 * w2 - v2 * w1) := by
  ring

theorem atan2Lt_trans (u1 u2 v1 v2 w1 w2 : α)
    (huv : atan2Lt u1 u2 v1 v2 = true) (hvw : atan2Lt v1 v2 w1 w2 = true) :
    atan2Lt u1 u2 w1 w2 = true := by
  unfold atan2Lt at huv hvw ⊢
  simp only [Bool.or_eq_true, Bool.and_eq_true, decide_eq_true_eq] at huv hvw ⊢
  rcases huv with h1 | ⟨h1, c1⟩
  · rcases hvw with h2 | ⟨h2, c2⟩
    · exact Or.inl (h1.trans h2)
    · exact Or.inl (h2 ▸ h1)
  · rcases hvw with h2 | ⟨h2, c2⟩
    · exact Or.inl (h1 ▸ h2)
    · refine Or.inr ⟨h1.trans h2, ?_⟩
      obtain ⟨n, hn⟩ : ∃ n, atan2Band v1 v2 = n := ⟨_, rfl⟩
      rw [hn] at h1 h2
      have hb7 : n ≤ 7 := hn ▸ band_le_7 v1 v2
      have hid := cross_shear_x u1 u2 v1 v2 w1 w2
      interval_cases n
      · obtain ⟨hu1, hu2⟩ := (band_eq_0 u1 u2).mp h1
        obtain ⟨hv1, hv2⟩ := (band_eq_0 v1 v2).mp hn
        obtain ⟨hw1, hw2⟩ := (band_eq_0 w1 w2).mp h2.symm
        nlinarith [c1, c2, hid, mul_neg_of_neg_of_pos hw1 c1,
          mul_neg_of_neg_of_pos hu1 c2]
      · obtain ⟨hu1, hu2⟩ := (band_eq_1 u1 u2).mp h1
        obtain ⟨hv1, hv2⟩ := (band_eq_1 v1 v2).mp hn
        subst hu1; subst hv1
        exfalso; linarith [c1]
      · obtain ⟨hu1, hu2⟩ := (band_eq_2 u1 u2).mp h1
        obtain ⟨hv1, hv2⟩ := (band_eq_2 v1 v2).mp hn
        obtain ⟨hw1, hw2⟩ := (band_eq_2 w1 w2).mp h2.symm
        nlinarith [c1, c2, hid, mul_pos hw1 c1, mul_pos hu1 c2]
      · obtain ⟨hu1, hu2⟩ := (band_eq_3 u1 u2).mp h1
        obtain ⟨hv1, hv2⟩ := (band_eq_3 v1 v2).mp hn
        subst hu2; subst hv2
        exfalso; linarith [c1]
      · obtain ⟨hu1, hu2⟩ := (band_eq_4 u1 u2).mp h1
        obtain ⟨hv1, hv2⟩ := (band_eq_4 v1 v2).mp hn
        obtain ⟨hw1, hw2⟩ := (band_eq_4 w1 w2).mp h2.symm
        nlinarith [c1, c2, hid, mul_pos hw1 c1, mul_pos hu1 c2]
      · obtain ⟨hu1, hu2⟩ := (band_eq_5 u1 u2).mp h1
        obtain ⟨hv1, hv2⟩ := (band_eq_5 v1 v2).mp hn
        subst hu1; subst hv1
        exfalso; linarith [c1]
      · obtain ⟨hu1, hu2⟩ := (band_eq_6 u1 u2).mp h1
        obtain ⟨hv1, hv2⟩ := (band_eq_6 v1 v2).mp hn
        obtain ⟨hw1, hw2⟩ := (band_eq_6 w1 w2).mp h2.symm
        nlinarith [c1, c2, hid, mul_neg_of_neg_of_pos hw1 c1,
          mul_neg_of_neg_of_pos hu1 c2]
      · obtain ⟨hu1, hu2⟩ := (band_eq_7 u1 u2).mp h1
        obtain ⟨hv1, hv2⟩ := (band_eq_7 v1 v2).mp hn
        subst hu2; subst hv2
        exfalso; linarith [c1]

theorem atan2Eql_symm (u1 u2 v1 v2 : α)
    (h : atan2Eql u1 u2 v1 v2 = true) : atan2Eql v1 v2 u1 u2 = true := by
  unfold atan2Eql at h ⊢
  simp only [Bool.and_eq_true, decide_eq_true_eq] at h ⊢
  exact ⟨h.1.symm, by linarith [h.2]⟩

theorem atan2Eql_trans (u1 u2 v1 v2 w1 w2 : α)
    (huv : atan2Eql u1 u2 v1 v2 = true) (hvw : atan2Eql v1 v2 w1 w2 = true) :
    atan2Eql u1 u2 w1 w2 = true := by
  unfold atan2Eql at huv hvw ⊢
  simp only [Bool.and_eq_true, decide_eq_true_eq] at huv hvw ⊢
  obtain ⟨h1, c1⟩ := huv
  obtain ⟨h2, c2⟩ := hvw
  refine ⟨h1.trans h2, ?_⟩
  obtain ⟨n, hn⟩ : ∃ n, atan2Band v1 v2 = n := ⟨_, rfl⟩
  rw [hn] at h1 h2
  have hb7 : n ≤ 7 := hn ▸ band_le_7 v1 v2
  have hid := cross_shear_x u1 u2 v1 v2 w1 w2
  interval_cases n
  · obtain ⟨hv1, hv2⟩ := (band_eq_0 v1 v2).mp hn
    have hv1n : v1 ≠ 0 := ne_of_lt hv1
    have : v1 * (u1 * w2 - u2 * w1) = 0 := by rw [hid, c1, c2]; ring
    rcases mul_eq_zero.mp this with h | h
    · exact absurd h hv1n
    · exact h
  · obtain ⟨hu1, hu2⟩ := (band_eq_1 u1 u2).mp h1
    obtain ⟨hw1, hw2⟩ := (band_eq_1 w1 w2).mp h2.symm
    subst hu1; subst hw1; ring
  · obtain ⟨hv1, hv2⟩ := (band_eq_2 v1 v2).mp hn
    have hv1n : v1 ≠ 0 := ne_of_gt hv1
    have : v1 * (u1 * w2 - u2 * w1) = 0 := by rw [hid, c1, c2]; ring
    rcases mul_eq_zero.mp this with h | h
    · exact absurd h hv1n
    · exact h
  · obtain ⟨hu1, hu2⟩ := (band_eq_3 u1 u2).mp h1
    obtain ⟨hw1, hw2⟩ := (band_eq_3 w1 w2).mp h2.symm
    subst hu2; subst hw2; ring
  · obtain ⟨hv1, hv2⟩ := (band_eq_4 v1 v2).mp hn
    have hv1n : v1 ≠ 0 := ne_of_gt hv1
    have : v1 * (u1 * w2 - u2 * w1) = 0 := by rw [hid, c1, c2]; ring
    rcases mul_eq_zero.mp this with h | h
    · exact absurd h hv1n
    · exact h
  · obtain ⟨hu1, hu2⟩ := (band_eq_5 u1 u2).mp h1
    obtain ⟨hw1, hw2⟩ := (band_eq_5 w1 w2).mp h2.symm
    subst hu1; subst hw1; ring
  · obtain ⟨hv1, hv2⟩ := (band_eq_6 v1 v2).mp hn
    have hv1n : v1 ≠ 0 := ne_of_lt hv1
    have : v1 * (u1 * w2 - u2 * w1) = 0 := by rw [hid, c1, c2]; ring
    rcases mul_eq_zero.mp this with h | h
    · exact absurd h hv1n
    · exact h
  · obtain ⟨hu1, hu2⟩ := (band_eq_7 u1 u2).mp h1
    obtain ⟨hw1, hw2⟩ := (band_eq_7 w1 w2).mp h2.symm
    subst hu2; subst hw2; ring

end Order


section Order2

variable {α : Type} [LinearOrderedCommRing α]

theorem atan2Lt_of_eql_lt (u1 u2 v1 v2 w1 w2 : α)
    (huv : atan2Eql u1 u2 v1 v2 = true) (hvw : atan2Lt v1 v2 w1 w2 = true) :
    atan2Lt u1 u2 w1 w2 = true := by
  unfold atan2Eql at huv
  unfold atan2Lt at hvw ⊢
  simp only [Bool.or_eq_true, Bool.and_eq_true, decide_eq_true_eq] at huv hvw ⊢
  obtain ⟨h1, c1⟩ := huv
  rcases hvw with h2 | ⟨h2, c2⟩
  · exact Or.inl (h1 ▸ h2)
  · refine Or.inr ⟨h1.trans h2, ?_⟩
    obtain ⟨n, hn⟩ : ∃ n, atan2Band v1 v2 = n := ⟨_, rfl⟩
    rw [hn] at h1 h2
    have hb7 : n ≤ 7 := hn ▸ band_le_7 v1 v2
    have hid := cross_shear_x u1 u2 v1 v2 w1 w2
    have hid0 : v1 * (u1 * w2 - u2 * w1) = u1 * (v1 * w2 - v2 * w1) := by
      rw [hid, c1]; ring
    interval_cases n
    · obtain ⟨hu1, hu2⟩ := (band_eq_0 u1 u2).mp h1
      obtain ⟨hv1, hv2⟩ := (band_eq_0 v1 v2).mp hn
      nlinarith [hid0, mul_neg_of_neg_of_pos hu1 c2]
    · obtain ⟨hv1, hv2⟩ := (band_eq_1 v1 v2).mp hn
      obtain ⟨hw1, hw2⟩ := (band_eq_1 w1 w2).mp h2.symm
      subst hv1; subst hw1; exfalso; linarith [c2]
    · obtain ⟨hu1, hu2⟩ := (band_eq_2 u1 u2).mp h1
      obtain ⟨hv1, hv2⟩ := (band_eq_2 v1 v2).mp hn
      nlinarith [hid0, mul_pos hu1 c2]
    · obtain ⟨hv1, hv2⟩ := (band_eq_3 v1 v2).mp hn
      obtain ⟨hw1, hw2⟩ := (band_eq_3 w1 w2).mp h2.symm
      subst hv2; subst hw2; exfalso; linarith [c2]
    · obtain ⟨hu1, hu2⟩ := (band_eq_4 u1 u2).mp h1
      obtain ⟨hv1, hv2⟩ := (band_eq_4 v1 v2).mp hn
      nlinarith [hid0, mul_pos hu1 c2]
    · obtain ⟨hv1, hv2⟩ := (band_eq_5 v1 v2).mp hn
      obtain ⟨hw1, hw2⟩ := (band_eq_5 w1 w2).mp h2.symm
      subst hv1; subst hw1; exfalso; linarith [c2]
    · obtain ⟨hu1, hu2⟩ := (band_eq_6 u1 u2).mp h1
      obtain ⟨hv1, hv2⟩ := (band_eq_6 v1 v2).mp hn
      nlinarith [hid0, mul_neg_of_neg_of_pos hu1 c2]
    · obtain ⟨hv1, hv2⟩ := (band_eq_7 v1 v2).mp hn
      obtain ⟨hw1, hw2⟩ := (band_eq_7 w1 w2).mp h2.symm
      subst hv2; subst hw2; exfalso; linarith [c2]

theorem atan2Lt_of_lt_eql (u1 u2 v1 v2 w1 w2 : α)
    (huv : atan2Lt u1 u2 v1 v2 = true) (hvw : atan2Eql v1 v2 w1 w2 = true) :
    atan2Lt u1 u2 w1 w2 = true := by
  unfold atan2Eql at hvw
  unfold atan2Lt at huv ⊢
  simp only [Bool.or_eq_true, Bool.and_eq_true, decide_eq_true_eq] at huv hvw ⊢
  obtain ⟨h2, c2⟩ := hvw
  rcases huv with h1 | ⟨h1, c1⟩
  · exact Or.inl (h2 ▸ h1)
  · refine Or.inr ⟨h1.trans h2, ?_⟩
    obtain ⟨n, hn⟩ : ∃ n, atan2Band v1 v2 = n := ⟨_, rfl⟩
    rw [hn] at h1 h2
    have hb7 : n ≤ 7 := hn ▸ band_le_7 v1 v2
    have hid := cross_shear_x u1 u2 v1 v2 w1 w2
    have hid0 : v1 * (u1 * w2 - u2 * w1) = w1 * (u1 * v2 - u2 * v1) := by
      rw [hid, c2]; ring
    interval_cases n
    · obtain ⟨hv1, hv2⟩ := (band_eq_0 v1 v2).mp hn
      obtain ⟨hw1, hw2⟩ := (band_eq_0 w1 w2).mp h2.symm
      nlinarith [hid0, mul_neg_of_neg_of_pos hw1 c1]
    · obtain ⟨hu1, hu2⟩ := (band_eq_1 u1 u2).mp h1
      obtain ⟨hv1, hv2⟩ := (band_eq_1 v1 v2).mp hn
      subst hu1; subst hv1; exfalso; linarith [c1]
    · obtain ⟨hv1, hv2⟩ := (band_eq_2 v1 v2).mp hn
      obtain ⟨hw1, hw2⟩ := (band_eq_2 w1 w2).mp h2.symm
      nlinarith [hid0, mul_pos hw1 c1]
    · obtain ⟨hu1, hu2⟩ := (band_eq_3 u1 u2).mp h1
      obtain ⟨hv1, hv2⟩ := (band_eq_3 v1 v2).mp hn
      subst hu2; subst hv2; exfalso; linarith [c1]
    · obtain ⟨hv1, hv2⟩ := (band_eq_4 v1 v2).mp hn
      obtain ⟨hw1, hw2⟩ := (band_eq_4 w1 w2).mp h2.symm
      nlinarith [hid0, mul_pos hw1 c1]
    · obtain ⟨hu1, hu2⟩ := (band_eq_5 u1 u2).mp h1
      obtain ⟨hv1, hv2⟩ := (band_eq_5 v1 v2).mp hn
      subst hu1; subst hv1; exfalso; linarith [c1]
    · obtain ⟨hv1, hv2⟩ := (band_eq_6 v1 v2).mp hn
      obtain ⟨hw1, hw2⟩ := (band_eq_6 w1 w2).mp h2.symm
      nlinarith [hid0, mul_neg_of_neg_of_pos hw1 c1]
    · obtain ⟨hu1, hu2⟩ := (band_eq_7 u1 u2).mp h1
      obtain ⟨hv1, hv2⟩ := (band_eq_7 v1 v2).mp hn
      subst hu2; subst hv2; exfalso; linarith [c1]

theorem atan2_trichotomy (u1 u2 v1 v2 : α) :
    atan2Lt u1 u2 v1 v2 = true ∨ atan2Lt v1 v2 u1 u2 = true ∨
      atan2Eql u1 u2 v1 v2 = true := by
  unfold atan2Lt atan2Eql
  simp only [Bool.or_eq_true, Bool.and_eq_true, decide_eq_true_eq]
  rcases Nat.lt_trichotomy (atan2Band u1 u2) (atan2Band v1 v2) with h | h | h
  · exact Or.inl (Or.inl h)
  · rcases lt_trichotomy 0 (u1 * v2 - u2 * v1) with hc | hc | hc
    · exact Or.inl (Or.inr ⟨h, hc⟩)
    · exact Or.inr (Or.inr ⟨h, hc.symm⟩)
    · exact Or.inr (Or.inl (Or.inr ⟨h.symm, by linarith⟩))
  · exact Or.inr (Or.inl (Or.inl h))

theorem angleCmpLE_total {α : Type} [LinearOrderedCommRing α] (s a b : Pt α) :
    angleCmpLE s a b = true ∨ angleCmpLE s b a = true := by
  unfold angleCmpLE
  simp only [Bool.or_eq_true, Bool.and_eq_true, decide_eq_true_eq]
  rcases atan2_trichotomy (a.x - s.x) (a.y - s.y) (b.x - s.x) (b.y - s.y)
    with h | h | h
  · exact Or.inl (Or.inl h)
  · exact Or.inr (Or.inl h)
  · rcases le_total (dist2 s a) (dist2 s b) with hd | hd
    · exact Or.inl (Or.inr ⟨h, hd⟩)
    · exact Or.inr (Or.inr ⟨atan2Eql_symm _ _ _ _ h, hd⟩)

theorem angleCmpLE_trans {α : Type} [LinearOrderedCommRing α] (s a b c : Pt α)
    (hab : angleCmpLE s a b = true) (hbc : angleCmpLE s b c = true) :
    angleCmpLE s a c = true := by
  unfold angleCmpLE at hab hbc ⊢
  simp only [Bool.or_eq_true, Bool.and_eq_true, decide_eq_true_eq] at hab hbc ⊢
  rcases hab with h1 | ⟨h1, d1⟩
  · rcases hbc with h2 | ⟨h2, d2⟩
    · exact Or.inl (atan2Lt_trans _ _ _ _ _ _ h1 h2)
    · exact Or.inl (atan2Lt_of_lt_eql _ _ _ _ _ _ h1 h2)
  · rcases hbc with h2 | ⟨h2, d2⟩
    · exact Or.inl (atan2Lt_of_eql_lt _ _ _ _ _ _ h1 h2)
    · exact Or.inr ⟨atan2Eql_trans _ _ _ _ _ _ h1 h2, le_trans d1 d2⟩

end Order2


section Upper

variable {α : Type} [LinearOrderedCommRing α]

/-- The relative position of any point w.r.t. the bottom-most (ties:
left-most) start point: the closed upper half-plane minus the negative
x-axis. -/
def upperVec (dx dy : α) : Prop := 0 ≤ dy ∧ (dy = 0 → 0 ≤ dx)

theorem upper_band_mem (dx dy : α) (h : upperVec dx dy) :
    3 ≤ atan2Band dx dy ∧ atan2Band dx dy ≤ 6 := by
  obtain ⟨h1, h2⟩ := h
  unfold atan2Band
  split_ifs <;> first
    | omega
    | (exfalso; linarith)
    | (exfalso; linarith [h2 (by assumption)])

/-- Lemma A: between two vectors in the upper half-plane (minus the negative
x-axis), angular order implies a non-negative cross product. -/
theorem cross_nonneg_of_upper (u1 u2 v1 v2 : α)
    (hu : upperVec u1 u2) (hv : upperVec v1 v2)
    (h : atan2Lt u1 u2 v1 v2 = true ∨ atan2Eql u1 u2 v1 v2 = true) :
    0 ≤ u1 * v2 - u2 * v1 := by
  unfold atan2Lt atan2Eql at h
  simp only [Bool.or_eq_true, Bool.and_eq_true, decide_eq_true_eq] at h
  rcases h with (hb | ⟨hb, hc⟩) | ⟨hb, hc⟩
  · obtain ⟨hu3, hu6⟩ := upper_band_mem u1 u2 hu
    obtain ⟨hv3, hv6⟩ := upper_band_mem v1 v2 hv
    obtain ⟨m, hm⟩ : ∃ m, atan2Band u1 u2 = m := ⟨_, rfl⟩
    obtain ⟨n, hn⟩ : ∃ n, atan2Band v1 v2 = n := ⟨_, rfl⟩
    rw [hm, hn] at hb
    rw [hm] at hu3 hu6
    rw [hn] at hv3 hv6
    interval_cases m <;> interval_cases n <;> try omega
    · obtain ⟨ha1, ha2⟩ := (band_eq_3 u1 u2).mp hm
      obtain ⟨hb1, hb2⟩ := (band_eq_4 v1 v2).mp hn
      nlinarith [mul_nonneg ha1 (le_of_lt hb2)]
    · obtain ⟨ha1, ha2⟩ := (band_eq_3 u1 u2).mp hm
      obtain ⟨hb1, hb2⟩ := (band_eq_5 v1 v2).mp hn
      nlinarith [mul_nonneg ha1 (le_of_lt hb2)]
    · obtain ⟨ha1, ha2⟩ := (band_eq_3 u1 u2).mp hm
      obtain ⟨hb1, hb2⟩ := (band_eq_6 v1 v2).mp hn
      nlinarith [mul_nonneg ha1 (le_of_lt hb2)]
    · obtain ⟨ha1, ha2⟩ := (band_eq_4 u1 u2).mp hm
      obtain ⟨hb1, hb2⟩ := (band_eq_5 v1 v2).mp hn
      nlinarith [mul_pos ha1 hb2]
    · obtain ⟨ha1, ha2⟩ := (band_eq_4 u1 u2).mp hm
      obtain ⟨hb1, hb2⟩ := (band_eq_6 v1 v2).mp hn
      nlinarith [mul_pos ha1 hb2, mul_neg_of_pos_of_neg ha2 hb1]
    · obtain ⟨ha1, ha2⟩ := (band_eq_5 u1 u2).mp hm
      obtain ⟨hb1, hb2⟩ := (band_eq_6 v1 v2).mp hn
      nlinarith [mul_neg_of_pos_of_neg ha2 hb1]
  · exact le_of_lt hc
  · exact le_of_eq hc.symm

end Upper

section SortLemmas

variable {β : Type} (le : β → β → Bool)

theorem perm_insertCmpLE (a : β) : ∀ l, List.Perm (insertCmpLE le a l) (a :: l) := by
  intro l
  induction l with
  | nil => exact List.Perm.refl _
  | cons b bs ih =>
    unfold insertCmpLE
    by_cases h : le a b = true
    · rw [if_pos h]
    · rw [if_neg h]
      exact List.Perm.trans (List.Perm.cons b ih) (List.Perm.swap a b bs)

theorem perm_sortCmpLE : ∀ l, List.Perm (sortCmpLE le l) l := by
  intro l
  induction l with
  | nil => exact List.Perm.refl _
  | cons a as ih =>
    unfold sortCmpLE
    exact List.Perm.trans (perm_insertCmpLE le a (sortCmpLE le as))
      (List.Perm.cons a ih)

theorem pairwise_insertCmpLE
    (htot : ∀ a b, le a b = true ∨ le b a = true)
    (htrans : ∀ a b c, le a b = true → le b c = true → le a c = true)
    (a : β) : ∀ l, List.Pairwise (fun x y => le x y = true) l →
      List.Pairwise (fun x y => le x y = true) (insertCmpLE le a l) := by
  intro l
  induction l with
  | nil => intro _; exact List.pairwise_singleton _ a
  | cons b bs ih =>
    intro hp
    rw [List.pairwise_cons] at hp
    obtain ⟨hb, hbs⟩ := hp
    unfold insertCmpLE
    by_cases h : le a b = true
    · rw [if_pos h]
      rw [List.pairwise_cons]
      constructor
      · intro x hx
        rcases List.mem_cons.mp hx with rfl | hx
        · exact h
        · exact htrans a b x h (hb x hx)
      · rw [List.pairwise_cons]; exact ⟨hb, hbs⟩
    · rw [if_neg h]
      rw [List.pairwise_cons]
      constructor
      · intro x hx
        have hx2 := (perm_insertCmpLE le a bs).mem_iff.mp hx
        rcases List.mem_cons.mp hx2 with h4 | hx3
        · rw [h4]
          rcases htot a b with ht | ht
          · exact absurd ht h
          · exact ht
        · exact hb x hx3
      · exact ih hbs

theorem pairwise_sortCmpLE
    (htot : ∀ a b, le a b = true ∨ le b a = true)
    (htrans : ∀ a b c, le a b = true → le b c = true → le a c = true) :
    ∀ l, List.Pairwise (fun x y => le x y = true) (sortCmpLE le l) := by
  intro l
  induction l with
  | nil => exact List.Pairwise.nil
  | cons a as ih =>
    unfold sortCmpLE
    exact pairwise_insertCmpLE le htot htrans a _ ih

end SortLemmas


section FindStart

variable {α : Type} [LinearOrderedCommRing α]

theorem startBetter_eq_false_iff (p q : Pt α) :
    startBetter p q = false ↔ q.y ≤ p.y ∧ (p.y = q.y → q.x ≤ p.x) := by
  unfold startBetter
  simp only [Bool.or_eq_false_iff, Bool.and_eq_false_iff,
    decide_eq_false_iff_not, not_lt]
  constructor
  · rintro ⟨h1, h2 | h2⟩
    · exact ⟨h1, fun hy => absurd hy h2⟩
    · exact ⟨h1, fun _ => h2⟩
  · rintro ⟨h1, h2⟩
    refine ⟨h1, ?_⟩
    by_cases hy : p.y = q.y
    · exact Or.inr (h2 hy)
    · exact Or.inl hy

theorem startBetter_eq_true_iff (p q : Pt α) :
    startBetter p q = true ↔ p.y < q.y ∨ (p.y = q.y ∧ p.x < q.x) := by
  unfold startBetter
  simp only [Bool.or_eq_true, Bool.and_eq_true, decide_eq_true_eq]

theorem startBetter_irrefl (p : Pt α) : startBetter p p = false := by
  rw [startBetter_eq_false_iff]
  exact ⟨le_refl _, fun _ => le_refl _⟩

theorem startBetter_asymm (p q : Pt α) (h : startBetter p q = true) :
    startBetter q p = false := by
  rw [startBetter_eq_true_iff] at h
  rw [startBetter_eq_false_iff]
  rcases h with h | ⟨h1, h2⟩
  · exact ⟨le_of_lt h, fun hy => absurd hy (ne_of_gt h)⟩
  · exact ⟨le_of_eq h1, fun _ => le_of_lt h2⟩

theorem notBetter_trans (t r q : Pt α) (h1 : startBetter r t = false)
    (h2 : startBetter q r = false) : startBetter q t = false := by
  rw [startBetter_eq_false_iff] at h1 h2 ⊢
  obtain ⟨h1a, h1b⟩ := h1
  obtain ⟨h2a, h2b⟩ := h2
  refine ⟨le_trans h1a h2a, fun hy => ?_⟩
  have hry : r.y = q.y := le_antisymm h2a (by linarith)
  have hrt : r.y = t.y := by linarith [hry]
  exact le_trans (h1b hrt) (h2b hry.symm)

theorem findStartAux_min (l : List (Pt α)) : ∀ (i : ℕ) (best : ℕ × Pt α),
    (∀ q ∈ l, startBetter q (findStartAux l i best).2 = false) ∧
      startBetter best.2 (findStartAux l i best).2 = false := by
  induction l with
  | nil =>
    intro i best
    exact ⟨fun q hq => absurd hq (List.not_mem_nil q), startBetter_irrefl _⟩
  | cons p rest ih =>
    intro i best
    unfold findStartAux
    by_cases h : startBetter p best.2 = true
    · rw [if_pos h]
      obtain ⟨iha, ihb⟩ := ih (i + 1) (i, p)
      constructor
      · intro q hq
        rcases List.mem_cons.mp hq with h4 | h4
        · rw [h4]; exact ihb
        · exact iha q h4
      · exact notBetter_trans _ _ _ ihb (startBetter_asymm _ _ h)
    · rw [if_neg h]
      obtain ⟨iha, ihb⟩ := ih (i + 1) best
      constructor
      · intro q hq
        rcases List.mem_cons.mp hq with h4 | h4
        · rw [h4]
          exact notBetter_trans _ _ _ ihb (Bool.eq_false_iff.mpr h)
        · exact iha q h4
      · exact ihb

theorem findStartAux_spec (l : List (Pt α)) : ∀ (i : ℕ) (best : ℕ × Pt α),
    findStartAux l i best = best ∨
      ∃ (k : ℕ) (hk : k < l.length),
        findStartAux l i best = (i + k, l.get ⟨k, hk⟩) := by
  induction l with
  | nil => intro i best; exact Or.inl rfl
  | cons p rest ih =>
    intro i best
    unfold findStartAux
    by_cases h : startBetter p best.2 = true
    · rw [if_pos h]
      rcases ih (i + 1) (i, p) with h2 | ⟨k, hk, h2⟩
      · refine Or.inr ⟨0, by simp, ?_⟩
        rw [h2]; rfl
      · refine Or.inr ⟨k + 1, by simpa using Nat.succ_lt_succ hk, ?_⟩
        rw [h2]
        refine congrArg₂ Prod.mk (by omega) rfl
    · rw [if_neg h]
      rcases ih (i + 1) best with h2 | ⟨k, hk, h2⟩
      · exact Or.inl h2
      · refine Or.inr ⟨k + 1, by simpa using Nat.succ_lt_succ hk, ?_⟩
        rw [h2]
        refine congrArg₂ Prod.mk (by omega) rfl

theorem findStart_min (p : Pt α) (rest : List (Pt α)) :
    ∀ q ∈ p :: rest, startBetter q (findStart (p :: rest)).2 = false := by
  intro q hq
  simp only [findStart]
  obtain ⟨ha, hb⟩ := findStartAux_min rest 1 (0, p)
  rcases List.mem_cons.mp hq with h4 | h4
  · rw [h4]; exact hb
  · exact ha q h4

theorem findStart_lt (p : Pt α) (rest : List (Pt α)) :
    (findStart (p :: rest)).1 < (p :: rest).length := by
  simp only [findStart]
  rcases findStartAux_spec rest 1 (0, p) with h | ⟨k, hk, h⟩
  · rw [h]; simp
  · rw [h]
    show 1 + k < (p :: rest).length
    simp only [List.length_cons]
    omega

theorem findStart_get (p : Pt α) (rest : List (Pt α)) :
    (p :: rest)[(findStart (p :: rest)).1]? = some (findStart (p :: rest)).2 := by
  simp only [findStart]
  rcases findStartAux_spec rest 1 (0, p) with h | ⟨k, hk, h⟩
  · rw [h]; simp
  · rw [h]
    have h1k : (1 + k : ℕ) = k + 1 := by omega
    show (p :: rest)[1 + k]? = some (rest.get ⟨k, hk⟩)
    rw [h1k, List.getElem?_cons_succ]
    simp [List.getElem?_eq_getElem hk]

theorem upper_of_not_better (s q : Pt α) (h : startBetter q s = false) :
    upperVec (q.x - s.x) (q.y - s.y) := by
  rw [startBetter_eq_false_iff] at h
  refine ⟨by linarith [h.1], fun hy => ?_⟩
  have : q.y = s.y := by linarith [sub_eq_zero.mp hy]
  linarith [h.2 this]

theorem mem_eraseIdx_or {β : Type} :
    ∀ (l : List β) (i : ℕ) (hi : i < l.length) (q), q ∈ l →
      q ∈ l.eraseIdx i ∨ q = l.get ⟨i, hi⟩ := by
  intro l
  induction l with
  | nil => intro i hi q hq; exact absurd hq (List.not_mem_nil q)
  | cons a rest ih =>
    intro i hi q hq
    match i with
    | 0 =>
      rcases List.mem_cons.mp hq with h4 | h4
      · exact Or.inr h4
      · exact Or.inl h4
    | j + 1 =>
      rcases List.mem_cons.mp hq with h4 | h4
      · exact Or.inl (h4 ▸ List.mem_cons_self a _)
      · rcases ih j (by simpa using Nat.lt_of_succ_lt_succ hi) q h4 with h5 | h5
        · exact Or.inl (List.mem_cons_of_mem a h5)
        · exact Or.inr h5

theorem mem_of_mem_eraseIdx {β : Type} :
    ∀ (l : List β) (i : ℕ) (q), q ∈ l.eraseIdx i → q ∈ l := by
  intro l
  induction l with
  | nil => intro i q hq; simpa [List.eraseIdx] using hq
  | cons a rest ih =>
    intro i q hq
    match i with
    | 0 => exact List.mem_cons_of_mem a hq
    | j + 1 =>
      rcases List.mem_cons.mp hq with h4 | h4
      · exact h4 ▸ List.mem_cons_self a _
      · exact List.mem_cons_of_mem a (ih j q h4)

end FindStart


section ConvexBasics

/-- A point as a vector of the plane `ℝ × ℝ`, for convexity statements. -/
def toE (p : Pt ℝ) : ℝ × ℝ := (p.x, p.y)

/-- The set of positions of a list of points. -/
def ptSet (l : List (Pt ℝ)) : Set (ℝ × ℝ) := {z | ∃ q ∈ l, toE q = z}

theorem mem_ptSet {q : Pt ℝ} {l : List (Pt ℝ)} (h : q ∈ l) : toE q ∈ ptSet l :=
  ⟨q, h, rfl⟩

theorem ptSet_cons (a : Pt ℝ) (l : List (Pt ℝ)) :
    ptSet (a :: l) = insert (toE a) (ptSet l) := by
  ext z
  constructor
  · rintro ⟨q, hq, rfl⟩
    rcases List.mem_cons.mp hq with h | h
    · exact h ▸ Set.mem_insert _ _
    · exact Set.mem_insert_of_mem _ (mem_ptSet h)
  · rintro (rfl | ⟨q, hq, rfl⟩)
    · exact mem_ptSet (List.mem_cons_self a l)
    · exact mem_ptSet (List.mem_cons_of_mem a hq)

theorem ptSet_mono {l l' : List (Pt ℝ)} (h : l ⊆ l') : ptSet l ⊆ ptSet l' := by
  rintro z ⟨q, hq, rfl⟩
  exact mem_ptSet (h hq)

theorem ptSet_swap (a b : Pt ℝ) (l : List (Pt ℝ)) :
    ptSet (a :: b :: l) = ptSet (b :: a :: l) := by
  rw [ptSet_cons, ptSet_cons, ptSet_cons, ptSet_cons, Set.insert_comm]

theorem convexHull_insert_of_mem {E : Type} [AddCommGroup E] [Module ℝ E]
    (y : E) (s : Set E) (hy : y ∈ convexHull ℝ s) :
    convexHull ℝ (insert y s) = convexHull ℝ s :=
  le_antisymm
    (convexHull_min (Set.insert_subset_iff.mpr ⟨hy, subset_convexHull ℝ s⟩)
      (convex_convexHull ℝ s))
    (convexHull_mono (Set.subset_insert y s))

theorem mem_convexHull_triple {E : Type} [AddCommGroup E] [Module ℝ E]
    (a b c z : E) (l1 l2 l3 : ℝ) (h1 : 0 ≤ l1) (h2 : 0 ≤ l2) (h3 : 0 ≤ l3)
    (hsum : l1 + l2 + l3 = 1) (hz : z = l1 • a + l2 • b + l3 • c) :
    z ∈ convexHull ℝ ({a, b, c} : Set E) := by
  by_cases ht : l2 + l3 = 0
  · have hl2 : l2 = 0 := by linarith
    have hl3 : l3 = 0 := by linarith
    have hl1 : l1 = 1 := by linarith
    have hza : z = a := by rw [hz, hl1, hl2, hl3]; simp
    exact hza ▸ subset_convexHull ℝ _ (Set.mem_insert _ _)
  · have htpos : 0 < l2 + l3 := lt_of_le_of_ne (by linarith) (Ne.symm ht)
    set t : ℝ := l2 + l3 with htdef
    set w : E := (l2 / t) • b + (l3 / t) • c with hwdef
    have hw : w ∈ convexHull ℝ ({b, c} : Set E) := by
      rw [convexHull_pair]
      exact ⟨l2 / t, l3 / t, div_nonneg h2 (le_of_lt htpos),
        div_nonneg h3 (le_of_lt htpos),
        by rw [div_add_div_same, div_self (ne_of_gt htpos)], rfl⟩
    have hzw : z = l1 • a + t • w := by
      rw [hz, hwdef, smul_add, smul_smul, smul_smul,
        mul_div_cancel₀ l2 (ne_of_gt htpos), mul_div_cancel₀ l3 (ne_of_gt htpos)]
      abel
    rw [show ({a, b, c} : Set E) = insert a {b, c} from rfl,
      convexHull_insert ⟨b, Set.mem_insert _ _⟩, mem_convexJoin]
    exact ⟨a, Set.mem_singleton a, w, hw,
      ⟨l1, t, h1, le_of_lt htpos, by linarith, hzw.symm⟩⟩

end ConvexBasics


section Triangle

/-- Pt-level form of Lemma A for the comparator. -/
theorem cross_nonneg_of_cmp {α : Type} [LinearOrderedCommRing α] (s a b : Pt α)
    (ha : upperVec (a.x - s.x) (a.y - s.y)) (hb : upperVec (b.x - s.x) (b.y - s.y))
    (h : angleCmpLE s a b = true) : 0 ≤ crossProduct s a b := by
  unfold angleCmpLE at h
  simp only [Bool.or_eq_true, Bool.and_eq_true] at h
  show (0 : α) ≤ (a.x - s.x) * (b.y - s.y) - (a.y - s.y) * (b.x - s.x)
  apply cross_nonneg_of_upper _ _ _ _ ha hb
  rcases h with h | ⟨h, _⟩
  · exact Or.inl h
  · exact Or.inr h

/-- A point on the segment from `s` towards `p` (shown through the comparator
tie-break on distance) lies in the convex hull of `{s, x, p}`. -/
theorem same_ray_mem (s x y p : Pt ℝ) (r : ℝ)
    (hrx : y.x - s.x = r * (p.x - s.x)) (hry : y.y - s.y = r * (p.y - s.y))
    (hrpos : 0 < r)
    (hpU : upperVec (p.x - s.x) (p.y - s.y))
    (hdp : 0 < dist2 s p)
    (hyp : angleCmpLE s y p = true) :
    toE y ∈ convexHull ℝ ({toE s, toE x, toE p} : Set (ℝ × ℝ)) := by
  have hband : atan2Band (y.x - s.x) (y.y - s.y) =
      atan2Band (p.x - s.x) (p.y - s.y) := by
    rcases lt_or_eq_of_le hpU.1 with hpy | hpy
    · rcases lt_trichotomy (p.x - s.x) 0 with hpx | hpx | hpx
      · rw [(band_eq_6 _ _).mpr ⟨hpx, hpy⟩]
        exact (band_eq_6 _ _).mpr ⟨by nlinarith, by nlinarith⟩
      · rw [(band_eq_5 _ _).mpr ⟨hpx, hpy⟩]
        refine (band_eq_5 _ _).mpr ⟨by rw [hrx, hpx]; ring, by nlinarith⟩
      · rw [(band_eq_4 _ _).mpr ⟨hpx, hpy⟩]
        exact (band_eq_4 _ _).mpr ⟨by nlinarith, by nlinarith⟩
    · rw [(band_eq_3 _ _).mpr ⟨hpU.2 hpy.symm, hpy.symm⟩]
      refine (band_eq_3 _ _).mpr ⟨?_, ?_⟩
      · rw [hrx]
        exact mul_nonneg (le_of_lt hrpos) (hpU.2 hpy.symm)
      · rw [hry, ← hpy]; ring
  have hcross0 : (y.x - s.x) * (p.y - s.y) - (y.y - s.y) * (p.x - s.x) = 0 := by
    rw [hrx, hry]; ring
  have hdist : dist2 s y ≤ dist2 s p := by
    unfold angleCmpLE at hyp
    simp only [Bool.or_eq_true, Bool.and_eq_true, decide_eq_true_eq] at hyp
    rcases hyp with hlt | ⟨_, hd⟩
    · exfalso
      unfold atan2Lt at hlt
      simp only [Bool.or_eq_true, Bool.and_eq_true, decide_eq_true_eq] at hlt
      rcases hlt with hb | ⟨_, hc⟩
      · rw [hband] at hb; omega
      · rw [hcross0] at hc; linarith
    · exact hd
  have hdd : dist2 s y = r * r * dist2 s p := by
    unfold dist2; rw [hrx, hry]; ring
  have hrr : r * r ≤ 1 := by nlinarith [hdist, hdd, hdp]
  have hr1 : r ≤ 1 := by nlinarith [sq_nonneg (r - 1), hrr, hrpos]
  apply mem_convexHull_triple (toE s) (toE x) (toE p) (toE y) (1 - r) 0 r
    (by linarith) le_rfl (le_of_lt hrpos) (by ring)
  have hgx : y.x = (1 - r) * s.x + 0 * x.x + r * p.x := by linarith [hrx]
  have hgy : y.y = (1 - r) * s.y + 0 * x.y + r * p.y := by linarith [hry]
  show ((y.x, y.y) : ℝ × ℝ) = _
  rw [Prod.ext_iff]
  constructor
  · show y.x = ((1 - r) • toE s + 0 • toE x + r • toE p).1
    simp only [Prod.fst_add, Prod.smul_fst, smul_eq_mul, toE]
    linarith [hgx]
  · show y.y = ((1 - r) • toE s + 0 • toE x + r • toE p).2
    simp only [Prod.snd_add, Prod.smul_snd, smul_eq_mul, toE]
    linarith [hgy]

set_option maxHeartbeats 1000000 in
/-- The heart of the scan's correctness: a popped point `y` (top of stack,
with `x` beneath it and incoming point `p`) stays inside the convex hull of
the start point, the point beneath, and the incoming point. -/
theorem popped_mem (s x y p : Pt ℝ)
    (hyU : upperVec (y.x - s.x) (y.y - s.y))
    (hpU : upperVec (p.x - s.x) (p.y - s.y))
    (hpop : crossProduct x y p ≤ 0)
    (h2 : 0 ≤ crossProduct s y p)
    (h3 : 0 ≤ crossProduct s x y)
    (hyp : angleCmpLE s y p = true ∨ toE y = toE s) :
    toE y ∈ convexHull ℝ ({toE s, toE x, toE p} : Set (ℝ × ℝ)) := by
  by_cases hy0 : toE y = toE s
  · rw [hy0]; exact subset_convexHull ℝ _ (Set.mem_insert _ _)
  replace hyp : angleCmpLE s y p = true := hyp.resolve_right hy0
  have hyne : ¬(y.x - s.x = 0 ∧ y.y - s.y = 0) := by
    rintro ⟨ha, hb⟩
    exact hy0 (by
      show ((y.x, y.y) : ℝ × ℝ) = (s.x, s.y)
      rw [sub_eq_zero.mp ha, sub_eq_zero.mp hb])
  have hl1 : 0 ≤ crossProduct y x p := by
    have hswap : crossProduct y x p = -crossProduct x y p := by
      unfold crossProduct; ring
    rw [hswap]; linarith
  have hsum : crossProduct y x p + crossProduct s y p + crossProduct s x y =
      crossProduct s x p := by
    unfold crossProduct; ring
  have hD0 : 0 ≤ crossProduct s x p := by linarith
  rcases lt_or_eq_of_le hD0 with hD | hD
  · -- nondegenerate: barycentric combination with positive total weight
    have hDx : crossProduct s x p * y.x = crossProduct y x p * s.x +
        crossProduct s y p * x.x + crossProduct s x y * p.x := by
      unfold crossProduct; ring
    have hDy : crossProduct s x p * y.y = crossProduct y x p * s.y +
        crossProduct s y p * x.y + crossProduct s x y * p.y := by
      unfold crossProduct; ring
    have hDne : crossProduct s x p ≠ 0 := ne_of_gt hD
    apply mem_convexHull_triple (toE s) (toE x) (toE p) (toE y)
      (crossProduct y x p / crossProduct s x p)
      (crossProduct s y p / crossProduct s x p)
      (crossProduct s x y / crossProduct s x p)
      (div_nonneg hl1 (le_of_lt hD)) (div_nonneg h2 (le_of_lt hD))
      (div_nonneg h3 (le_of_lt hD))
      (by field_simp; linarith [hsum])
    show ((y.x, y.y) : ℝ × ℝ) = _
    rw [Prod.ext_iff]
    constructor
    · show y.x = (_ • toE s + _ • toE x + _ • toE p).1
      simp only [Prod.fst_add, Prod.smul_fst, smul_eq_mul, toE]
      field_simp
      linear_combination hDx
    · show y.y = (_ • toE s + _ • toE x + _ • toE p).2
      simp only [Prod.snd_add, Prod.smul_snd, smul_eq_mul, toE]
      field_simp
      linear_combination hDy
  · -- degenerate: all three sub-areas vanish, y is on the ray to p
    have hl1z : crossProduct y x p = 0 := by linarith
    have hl2z : crossProduct s y p = 0 := by linarith
    have hc : (y.x - s.x) * (p.y - s.y) - (y.y - s.y) * (p.x - s.x) = 0 := by
      have : crossProduct s y p =
          (y.x - s.x) * (p.y - s.y) - (y.y - s.y) * (p.x - s.x) := rfl
      linarith [this ▸ hl2z]
    by_cases hp0 : p.x - s.x = 0 ∧ p.y - s.y = 0
    · -- p coincides with s: the tie-break forces y onto s, contradiction
      exfalso
      obtain ⟨hpa, hpb⟩ := hp0
      unfold angleCmpLE at hyp
      simp only [Bool.or_eq_true, Bool.and_eq_true, decide_eq_true_eq] at hyp
      have hband3 : atan2Band (p.x - s.x) (p.y - s.y) = 3 :=
        (band_eq_3 _ _).mpr ⟨le_of_eq hpa.symm, hpb⟩
      have hbandy : 3 ≤ atan2Band (y.x - s.x) (y.y - s.y) :=
        (upper_band_mem _ _ hyU).1
      rcases hyp with hlt | ⟨_, hd⟩
      · unfold atan2Lt at hlt
        simp only [Bool.or_eq_true, Bool.and_eq_true, decide_eq_true_eq] at hlt
        rcases hlt with hb | ⟨_, hcc⟩
        · rw [hband3] at hb; omega
        · rw [hpa, hpb] at hcc; nlinarith [hcc]
      · have hdp0 : dist2 s p = 0 := by
          unfold dist2; rw [hpa, hpb]; ring
        rw [hdp0] at hd
        have hy2 : dist2 s y = 0 := le_antisymm hd (by
          unfold dist2
          nlinarith [mul_self_nonneg (y.x - s.x), mul_self_nonneg (y.y - s.y)])
        unfold dist2 at hy2
        exact hyne ⟨by nlinarith [mul_self_nonneg (y.x - s.x),
            mul_self_nonneg (y.y - s.y)],
          by nlinarith [mul_self_nonneg (y.x - s.x),
            mul_self_nonneg (y.y - s.y)]⟩
    · -- p distinct from s: y = s + r (p - s) with 0 < r because y ≠ s
      rcases lt_or_eq_of_le hpU.1 with hpy | hpy
      · set r : ℝ := (y.y - s.y) / (p.y - s.y) with hrdef
        have hpyne : p.y - s.y ≠ 0 := ne_of_gt hpy
        have hry : y.y - s.y = r * (p.y - s.y) := by
          rw [hrdef, div_mul_cancel₀ _ hpyne]
        have hrx : y.x - s.x = r * (p.x - s.x) := by
          rw [hrdef, div_mul_eq_mul_div, eq_div_iff hpyne]
          linear_combination hc
        have hr0 : 0 ≤ r := div_nonneg hyU.1 (le_of_lt hpy)
        rcases lt_or_eq_of_le hr0 with hrpos | hrz
        · have hdp : 0 < dist2 s p := by
            unfold dist2
            have ha := mul_self_nonneg (p.x - s.x)
            have hb := mul_pos hpy hpy
            linarith
          exact same_ray_mem s x y p r hrx hry hrpos hpU hdp hyp
        · exfalso
          apply hyne
          constructor
          · rw [hrx, ← hrz]; ring
          · rw [hry, ← hrz]; ring
      · -- p on the positive x-axis from s
        have hpy0 : p.y - s.y = 0 := hpy.symm
        have hpx0 : 0 ≤ p.x - s.x := hpU.2 hpy0
        have hpxpos : 0 < p.x - s.x := by
          rcases lt_or_eq_of_le hpx0 with h | h
          · exact h
          · exact absurd ⟨h.symm, hpy0⟩ hp0
        have hyy0 : y.y - s.y = 0 := by
          have : (y.y - s.y) * (p.x - s.x) = 0 := by
            rw [hpy0] at hc; linarith [hc]
          rcases mul_eq_zero.mp this with h | h
          · exact h
          · exact absurd h (ne_of_gt hpxpos)
        set r : ℝ := (y.x - s.x) / (p.x - s.x) with hrdef
        have hrx : y.x - s.x = r * (p.x - s.x) := by
          rw [hrdef, div_mul_cancel₀ _ (ne_of_gt hpxpos)]
        have hry : y.y - s.y = r * (p.y - s.y) := by
          rw [hyy0, hpy0]; ring
        have hr0 : 0 ≤ r := div_nonneg (hyU.2 hyy0) (le_of_lt hpxpos)
        rcases lt_or_eq_of_le hr0 with hrpos | hrz
        · have hdp : 0 < dist2 s p := by
            unfold dist2
            have ha := mul_self_nonneg (p.y - s.y)
            have hb := mul_pos hpxpos hpxpos
            linarith
          exact same_ray_mem s x y p r hrx hry hrpos hpU hdp hyp
        · exfalso
          apply hyne
          constructor
          · rw [hrx, ← hrz]; ring
          · exact hyy0

end Triangle


section ScanInvariant

theorem scanPop_suffix {α : Type} [LinearOrderedCommRing α] (p : Pt α) :
    ∀ l : List (Pt α), (scanPop p l).IsSuffix l := by
  intro l
  induction l with
  | nil => exact List.suffix_refl _
  | cons a tail ih =>
    cases tail with
    | nil => exact List.suffix_refl _
    | cons b rest =>
      have hred : scanPop p (a :: b :: rest) =
          if crossProduct b a p ≤ 0 then scanPop p (b :: rest)
          else a :: b :: rest := rfl
      by_cases hg : crossProduct b a p ≤ 0
      · rw [hred, if_pos hg]
        exact ih.trans ⟨[a], rfl⟩
      · rw [hred, if_neg hg]

theorem scanPop_ends {α : Type} [LinearOrderedCommRing α] (p s : Pt α) :
    ∀ pre : List (Pt α), ∃ pre2, scanPop p (pre ++ [s]) = pre2 ++ [s] := by
  intro pre
  induction pre with
  | nil => exact ⟨[], rfl⟩
  | cons a pre2 ih =>
    show ∃ pre3, scanPop p (a :: (pre2 ++ [s])) = pre3 ++ [s]
    cases hsplit : pre2 ++ [s] with
    | nil => exact absurd hsplit (by simp)
    | cons b rest =>
      have hred : scanPop p (a :: b :: rest) =
          if crossProduct b a p ≤ 0 then scanPop p (b :: rest)
          else a :: b :: rest := rfl
      rw [hred]
      by_cases hg : crossProduct b a p ≤ 0
      · rw [if_pos hg, ← hsplit]
        exact ih
      · rw [if_neg hg, ← hsplit]
        exact ⟨a :: pre2, rfl⟩

set_option maxHeartbeats 1000000 in
/-- The pop loop keeps every previously-covered point inside the convex hull
of the (incoming point plus) shrinking stack. -/
theorem pop_keeps (s p : Pt ℝ) (processed : List (Pt ℝ))
    (hupAll : ∀ q ∈ s :: processed, upperVec (q.x - s.x) (q.y - s.y))
    (hpU : upperVec (p.x - s.x) (p.y - s.y))
    (hALEp : ∀ q ∈ processed, angleCmpLE s q p = true)
    (hpairs : List.Pairwise (fun a b => a = s ∨ angleCmpLE s a b = true)
      (s :: processed)) :
    ∀ cur : List (Pt ℝ), (∃ pre, cur = pre ++ [s]) →
      (cur.reverse.Sublist (s :: processed)) →
      (∀ q ∈ s :: processed, toE q ∈ convexHull ℝ (ptSet (p :: cur))) →
      ∀ q ∈ s :: processed, toE q ∈ convexHull ℝ (ptSet (p :: scanPop p cur)) := by
  intro cur
  induction cur with
  | nil => intro hshape hsub hcont; exact hcont
  | cons a tail ih =>
    intro hshape hsub hcont
    cases tail with
    | nil => exact hcont
    | cons b rest =>
      have hred : scanPop p (a :: b :: rest) =
          if crossProduct b a p ≤ 0 then scanPop p (b :: rest)
          else a :: b :: rest := rfl
      by_cases hg : crossProduct b a p ≤ 0
      · rw [hred, if_pos hg]
        obtain ⟨pre, hpre⟩ := hshape
        cases pre with
        | nil => exact absurd hpre (by simp)
        | cons a2 pre2 =>
          have hpre2 : a = a2 ∧ b :: rest = pre2 ++ [s] := by
            rw [List.cons_append] at hpre
            exact ⟨(List.cons.injEq _ _ _ _ ▸ hpre).1,
              (List.cons.injEq _ _ _ _ ▸ hpre).2⟩
          obtain ⟨ha2, htail⟩ := hpre2
          have hsub2 : (b :: rest).reverse.Sublist (s :: processed) := by
            refine List.Sublist.trans ?_ hsub
            have hrc : (a :: b :: rest).reverse = (b :: rest).reverse ++ [a] :=
              List.reverse_cons a (b :: rest)
            rw [hrc]
            exact List.sublist_append_left _ _
          have haMem : a ∈ s :: processed := by
            refine hsub.subset ?_
            rw [List.mem_reverse]
            exact List.mem_cons_self a _
          have hbMem : b ∈ s :: processed := by
            refine hsub.subset ?_
            rw [List.mem_reverse]
            exact List.mem_cons_of_mem a (List.mem_cons_self b _)
          have hupA := hupAll a haMem
          have hupB := hupAll b hbMem
          have hsMem : s ∈ b :: rest := by
            rw [htail]
            exact List.mem_append.mpr (Or.inr (List.mem_singleton_self s))
          have hRba : b = s ∨ angleCmpLE s b a = true := by
            have hp2 := List.Pairwise.sublist hsub hpairs
            rw [List.reverse_cons, List.reverse_cons] at hp2
            obtain ⟨hl, hr, hcross⟩ := List.pairwise_append.mp hp2
            exact hcross b (List.mem_append.mpr (Or.inr (List.mem_singleton_self b)))
              a (List.mem_singleton_self a)
          have h2 : 0 ≤ crossProduct s a p := by
            rcases List.mem_cons.mp haMem with h | h
            · rw [h]; simp [crossProduct]
            · exact cross_nonneg_of_cmp s a p hupA hpU (hALEp a h)
          have h3 : 0 ≤ crossProduct s b a := by
            rcases hRba with h | h
            · rw [h]; simp [crossProduct]
            · exact cross_nonneg_of_cmp s b a hupB hupA h
          have hyp : angleCmpLE s a p = true ∨ toE a = toE s := by
            rcases List.mem_cons.mp haMem with h | h
            · exact Or.inr (congrArg toE h)
            · exact Or.inl (hALEp a h)
          have key : toE a ∈ convexHull ℝ (ptSet (p :: b :: rest)) := by
            have hpm := popped_mem s b a p hupA hpU hg h2 h3 hyp
            refine convexHull_mono ?_ hpm
            intro z hz
            rcases hz with rfl | hz
            · exact mem_ptSet (List.mem_cons_of_mem p hsMem)
            · rcases hz with rfl | hz
              · exact mem_ptSet (List.mem_cons_of_mem p (List.mem_cons_self b _))
              · rw [Set.mem_singleton_iff.mp hz]
                exact mem_ptSet (List.mem_cons_self p _)
          have heq : convexHull ℝ (ptSet (p :: a :: b :: rest)) =
              convexHull ℝ (ptSet (p :: b :: rest)) := by
            rw [ptSet_swap p a (b :: rest), ptSet_cons a (p :: b :: rest)]
            exact convexHull_insert_of_mem _ _ key
          refine ih ⟨pre2, htail⟩ hsub2 ?_
          intro q hq
          rw [← heq]
          exact hcont q hq
      · rw [hred, if_neg hg]
        exact hcont

end ScanInvariant

section FoldInvariant

/-- The main scan invariant: after folding the sorted points into the stack,
every point seen so far lies in the convex hull of the stack positions. -/
theorem scanFold_inv (s : Pt ℝ) :
    ∀ (todo processed stack : List (Pt ℝ)),
      (∀ q ∈ s :: (processed ++ todo), upperVec (q.x - s.x) (q.y - s.y)) →
      List.Pairwise (fun a b => angleCmpLE s a b = true) (processed ++ todo) →
      (∃ pre, stack = pre ++ [s]) →
      (stack.reverse.Sublist (s :: processed)) →
      (∀ q ∈ s :: processed, toE q ∈ convexHull ℝ (ptSet stack)) →
      ∀ q ∈ s :: (processed ++ todo),
        toE q ∈ convexHull ℝ (ptSet
          (todo.foldl (fun hull point => point :: scanPop point hull) stack)) := by
  intro todo
  induction todo with
  | nil =>
    intro processed stack hup hpw hshape hsub hcont
    simp only [List.append_nil, List.foldl_nil]
    exact hcont
  | cons p todo2 ih =>
    intro processed stack hup hpw hshape hsub hcont
    have hsplit : processed ++ p :: todo2 = (processed ++ [p]) ++ todo2 := by
      simp
    have hpwA : List.Pairwise (fun a b => angleCmpLE s a b = true)
        ((processed ++ [p]) ++ todo2) := hsplit ▸ hpw
    have hALEp : ∀ q ∈ processed, angleCmpLE s q p = true := by
      obtain ⟨h1, h2, h3⟩ := List.pairwise_append.mp hpw
      exact fun q hq => h3 q hq p (List.mem_cons_self p todo2)
    have hpairsSP : List.Pairwise
        (fun a b => a = s ∨ angleCmpLE s a b = true) (s :: processed) := by
      rw [List.pairwise_cons]
      constructor
      · exact fun y _ => Or.inl rfl
      · exact ((List.pairwise_append.mp hpw).1).imp (fun h => Or.inr h)
    have hupP : upperVec (p.x - s.x) (p.y - s.y) := by
      refine hup p ?_
      exact List.mem_cons_of_mem s (List.mem_append.mpr
        (Or.inr (List.mem_cons_self p todo2)))
    have hupAllSP : ∀ q ∈ s :: processed, upperVec (q.x - s.x) (q.y - s.y) := by
      intro q hq
      refine hup q ?_
      rcases List.mem_cons.mp hq with h | h
      · exact h ▸ List.mem_cons_self s _
      · exact List.mem_cons_of_mem s (List.mem_append.mpr (Or.inl h))
    have hcontP : ∀ q ∈ s :: processed,
        toE q ∈ convexHull ℝ (ptSet (p :: stack)) := fun q hq =>
      convexHull_mono (ptSet_mono (List.subset_cons_self p stack)) (hcont q hq)
    have popres := pop_keeps s p processed hupAllSP hupP hALEp hpairsSP
      stack hshape hsub hcontP
    have shape2 : ∃ pre, p :: scanPop p stack = pre ++ [s] := by
      obtain ⟨pre, hpre⟩ := hshape
      obtain ⟨pre2, hp2⟩ := scanPop_ends p s pre
      refine ⟨p :: pre2, ?_⟩
      rw [hpre, hp2]
      rfl
    have sub2 : (p :: scanPop p stack).reverse.Sublist
        (s :: (processed ++ [p])) := by
      rw [List.reverse_cons]
      have h1 : (scanPop p stack).Sublist stack := (scanPop_suffix p stack).sublist
      have h2 : (scanPop p stack).reverse.Sublist stack.reverse := h1.reverse
      have h3 := h2.trans hsub
      have h4 := List.Sublist.append h3 (List.Sublist.refl [p])
      simpa using h4
    have cont2 : ∀ q ∈ s :: (processed ++ [p]),
        toE q ∈ convexHull ℝ (ptSet (p :: scanPop p stack)) := by
      intro q hq
      rcases List.mem_cons.mp hq with h | h
      · exact popres q (h ▸ List.mem_cons_self s processed)
      · rcases List.mem_append.mp h with h | h
        · exact popres q (List.mem_cons_of_mem s h)
        · rw [List.mem_singleton.mp h]
          exact subset_convexHull ℝ _ (mem_ptSet (List.mem_cons_self p _))
    have hup2 : ∀ q ∈ s :: ((processed ++ [p]) ++ todo2),
        upperVec (q.x - s.x) (q.y - s.y) := by
      intro q hq
      refine hup q ?_
      rw [hsplit]
      exact hq
    have hmain := ih (processed ++ [p]) (p :: scanPop p stack)
      hup2 hpwA shape2 sub2 cont2
    intro q hq
    exact hmain q (hsplit ▸ hq)

theorem ptSet_reverse (l : List (Pt ℝ)) : ptSet l.reverse = ptSet l := by
  ext z
  constructor
  · rintro ⟨q, hq, rfl⟩
    exact mem_ptSet (List.mem_reverse.mp hq)
  · rintro ⟨q, hq, rfl⟩
    exact mem_ptSet (List.mem_reverse.mpr hq)

/-- The output polygon of the Graham scan spans exactly the convex hull of
the input points. -/
theorem convexHull_calculateConvexHull (points : List (Pt ℝ)) :
    convexHull ℝ (ptSet (calculateConvexHull points)) =
      convexHull ℝ (ptSet points) := by
  have hsubset : convexHull ℝ (ptSet (calculateConvexHull points)) ⊆
      convexHull ℝ (ptSet points) :=
    convexHull_mono (ptSet_mono (calculateConvexHull_subset points))
  refine le_antisymm hsubset ?_
  by_cases hlen : points.length < 3
  · rw [calculateConvexHull, if_pos hlen]
  · cases hpts : points with
    | nil => rw [hpts] at hlen; exact absurd (by norm_num) hlen
    | cons p0 rest =>
      rw [← hpts]
      refine convexHull_min ?_ (convex_convexHull ℝ _)
      rintro z ⟨q, hq, rfl⟩
      -- facts about the start point
      have hne : points ≠ [] := by rw [hpts]; exact List.cons_ne_nil p0 rest
      have hmin : ∀ r ∈ points, startBetter r (findStart points).2 = false := by
        rw [hpts]
        exact findStart_min p0 rest
      have hup : ∀ r ∈ points, upperVec (r.x - (findStart points).2.x)
          (r.y - (findStart points).2.y) :=
        fun r hr => upper_of_not_better _ r (hmin r hr)
      have hlt : (findStart points).1 < points.length := by
        rw [hpts]; exact findStart_lt p0 rest
      have hget : points[(findStart points).1]? = some (findStart points).2 := by
        rw [hpts]; exact findStart_get p0 rest
      have hgetE : points.get ⟨(findStart points).1, hlt⟩ =
          (findStart points).2 := by
        have h2 := List.getElem?_eq_getElem hlt
        rw [hget] at h2
        have h3 : points[(findStart points).1] = (findStart points).2 :=
          Option.some.injEq _ _ ▸ h2.symm
        simpa [List.get_eq_getElem] using h3
      -- the sorted list
      have hperm := perm_sortCmpLE
        (fun a b => angleCmpLE (findStart points).2 a b)
        (points.eraseIdx (findStart points).1)
      have hpw := pairwise_sortCmpLE
        (fun a b => angleCmpLE (findStart points).2 a b)
        (fun a b => angleCmpLE_total _ a b)
        (fun a b c => angleCmpLE_trans _ a b c)
        (points.eraseIdx (findStart points).1)
      have hupSorted : ∀ r ∈ (findStart points).2 ::
          ([] ++ sortCmpLE (fun a b => angleCmpLE (findStart points).2 a b)
            (points.eraseIdx (findStart points).1)),
          upperVec (r.x - (findStart points).2.x)
            (r.y - (findStart points).2.y) := by
        intro r hr
        rcases List.mem_cons.mp hr with h | h
        · rw [h]
          constructor
          · rw [sub_self]
          · intro _; rw [sub_self]
        · rw [List.nil_append] at h
          have h2 := hperm.mem_iff.mp h
          exact hup r (eraseIdx_subset' points _ h2)
      have hcont0 : ∀ r ∈ [(findStart points).2],
          toE r ∈ convexHull ℝ (ptSet [(findStart points).2]) := by
        intro r hr
        rw [List.mem_singleton.mp hr]
        exact subset_convexHull ℝ _ (mem_ptSet (List.mem_singleton_self _))
      have hin := scanFold_inv (findStart points).2
        (sortCmpLE (fun a b => angleCmpLE (findStart points).2 a b)
          (points.eraseIdx (findStart points).1))
        [] [(findStart points).2]
        hupSorted (by rw [List.nil_append]; exact hpw)
        ⟨[], rfl⟩ (by simp) hcont0
      -- membership of q among the scanned points
      have hqmem : q ∈ (findStart points).2 ::
          sortCmpLE (fun a b => angleCmpLE (findStart points).2 a b)
            (points.eraseIdx (findStart points).1) := by
        rcases mem_eraseIdx_or points (findStart points).1 hlt q hq with h | h
        · exact List.mem_cons_of_mem _ (hperm.mem_iff.mpr h)
        · rw [hgetE] at h
          exact h ▸ List.mem_cons_self _ _
      simp only [List.nil_append] at hin
      have hq2 := hin q hqmem
      -- identify with the hull output
      rw [calculateConvexHull, if_neg hlen]
      rw [ptSet_reverse]
      exact hq2

end FoldInvariant

/-- The five test points: a square plus an interior point. -/
def pts5 : List (Pt ℤ) := [⟨0, 0⟩, ⟨4, 0⟩, ⟨4, 4⟩, ⟨0, 4⟩, ⟨2, 2⟩]

/-- The four square corners in counter-clockwise order. -/
def corners4 : List (Pt ℤ) := [⟨0, 0⟩, ⟨4, 0⟩, ⟨4, 4⟩, ⟨0, 4⟩]

/-- C7: the Graham scan of `calculateConvexHull`.  Concretely, on the square
plus interior point the hull is exactly the 4 square corners in
counter-clockwise order with the interior point excluded, the corners form a
strictly convex CCW cycle containing all five input points weakly on their
left — that is, the smallest convex polygon containing the input, in CCW
order.  In general, for every input over any linearly ordered commutative
ring, the result's vertices are input points and every three consecutive
result points make a strict left turn (cross product positive), and over the
reals the result's vertices span exactly the convex hull of the input point
set: the result is the smallest convex polygon containing all input
points. -/
theorem claim_C7_graham_scan (α : Type) [LinearOrderedCommRing α]
    (points : List (Pt α)) :
    calculateConvexHull pts5 = corners4 ∧
    (⟨2, 2⟩ : Pt ℤ) ∉ calculateConvexHull pts5 ∧
    (0 < crossProduct (⟨0, 0⟩ : Pt ℤ) ⟨4, 0⟩ ⟨4, 4⟩ ∧
      0 < crossProduct (⟨4, 0⟩ : Pt ℤ) ⟨4, 4⟩ ⟨0, 4⟩ ∧
      0 < crossProduct (⟨4, 4⟩ : Pt ℤ) ⟨0, 4⟩ ⟨0, 0⟩ ∧
      0 < crossProduct (⟨0, 4⟩ : Pt ℤ) ⟨0, 0⟩ ⟨4, 0⟩) ∧
    (∀ p ∈ pts5,
      0 ≤ crossProduct (⟨0, 0⟩ : Pt ℤ) ⟨4, 0⟩ p ∧
      0 ≤ crossProduct (⟨4, 0⟩ : Pt ℤ) ⟨4, 4⟩ p ∧
      0 ≤ crossProduct (⟨4, 4⟩ : Pt ℤ) ⟨0, 4⟩ p ∧
      0 ≤ crossProduct (⟨0, 4⟩ : Pt ℤ) ⟨0, 0⟩ p) ∧
    calculateConvexHull points ⊆ points ∧
    (∀ (i : ℕ) (h : i + 2 < (calculateConvexHull points).length),
      0 < crossProduct ((calculateConvexHull points).get ⟨i, by omega⟩)
        ((calculateConvexHull points).get ⟨i + 1, by omega⟩)
        ((calculateConvexHull points).get ⟨i + 2, h⟩)) ∧
    (∀ rpoints : List (Pt ℝ),
      convexHull ℝ (ptSet (calculateConvexHull rpoints)) =
        convexHull ℝ (ptSet rpoints)) := by
  refine ⟨by decide, by decide, by decide, by decide,
    calculateConvexHull_subset points, ?_,
    fun rpoints => convexHull_calculateConvexHull rpoints⟩
  intro i h
  by_cases h3 : points.length < 3
  · exfalso
    rw [calculateConvexHull, if_pos h3] at h
    omega
  · have hrev := (revChainB_index _).mp (calculateConvexHull_leftTurns points h3)
    set l := calculateConvexHull points with hl
    have hj2 : (l.length - 3 - i) + 2 < l.reverse.length := by
      rw [List.length_reverse]
      omega
    have hx := hrev (l.length - 3 - i) hj2
    simp only [List.get_eq_getElem, List.getElem_reverse] at hx ⊢
    have e1 : l.length - 1 - (l.length - 3 - i + 2) = i := by omega
    have e2 : l.length - 1 - (l.length - 3 - i + 1) = i + 1 := by omega
    have e3 : l.length - 1 - (l.length - 3 - i) = i + 2 := by omega
    simp only [e1, e2, e3] at hx
    exact hx


end TTT
